import Mathlib

/-
  Verification of the antigravity2api-nodejs core against its specification.

  The definitions below are shallow embeddings of the JavaScript source:
  * the SSE tag splitter of `src/api/client.js` (`processBuffer`, the stream
    loop, and the end-of-stream flush),
  * the credential scheduler of `src/auth/token_manager.js` (`getToken`'s
    scan/select loop, `recordSuccess`, `recordFailure`, `incrementActive`,
    `releaseToken`, `parseRetryAfter`),
  * the admission-queue middleware of `src/middleware/concurrency.js`,
  * the `Retry-After` extraction of `src/api/client.js`.

  JavaScript strings are modelled as `List Char`, JS `Map`s as functions with
  a default, wall-clock instants as `Nat` milliseconds, and JS numbers that
  may carry fractions as `ℚ`.  Platform primitives (`Date` parsing of HTTP
  dates) are abstracted as oracle parameters.
-/

namespace AntigravityProxy

/-! ## SSE tag splitter (src/api/client.js, `processBuffer`) -/

abbrev Str := List Char

/-- The literal tag strings searched for by `processBuffer`:
`textBuffer.indexOf` of the 7-character opening tag and the
8-character closing tag. -/
def openTag : Str := ['<', 't', 'h', 'i', 'n', 'k', '>']

def closeTag : Str := ['<', '/', 't', 'h', 'i', 'n', 'k', '>']

/-- JS `String.prototype.indexOf` for a non-empty needle: index of the first
occurrence of `pat`, or `none` (JS `-1`). -/
def indexOf (pat : Str) : Str → Option Nat
  | [] => if pat.isPrefixOf [] then some 0 else none
  | c :: rest => if pat.isPrefixOf (c :: rest) then some 0 else (indexOf pat rest).map (· + 1)

theorem isPrefixOf_length_le {pat l : Str} (h : pat.isPrefixOf l = true) :
    pat.length ≤ l.length := by
  induction pat generalizing l with
  | nil => simp
  | cons a as ih =>
    cases l with
    | nil => simp [List.isPrefixOf] at h
    | cons b bs =>
      simp only [List.isPrefixOf, Bool.and_eq_true] at h
      simpa using ih h.2

theorem indexOf_some_bound {pat l : Str} {i : Nat} (h : indexOf pat l = some i) :
    i + pat.length ≤ l.length := by
  induction l generalizing i with
  | nil =>
    by_cases hp : pat.isPrefixOf ([] : Str) = true
    · simp only [indexOf, hp, if_true, Option.some.injEq] at h
      subst h
      simpa using isPrefixOf_length_le hp
    · simp [indexOf, hp] at h
  | cons c rest ih =>
    by_cases hp : pat.isPrefixOf (c :: rest) = true
    · simp only [indexOf, hp, if_true, Option.some.injEq] at h
      subst h
      simpa using isPrefixOf_length_le hp
    · have h' : (indexOf pat rest).map (· + 1) = some i := by
        simpa [indexOf, hp] using h
      cases hr : indexOf pat rest with
      | none => simp [hr] at h'
      | some j =>
        rw [hr] at h'
        simp only [Option.map_some', Option.some.injEq] at h'
        have hb := ih hr
        simp only [List.length_cons]
        omega

/-- Events passed to the `callback` of `generateAssistantResponse`; only the
two content-carrying kinds matter for the tag splitter. -/
inductive Ev where
  | text (content : Str)
  | thinking (content : Str)
deriving DecidableEq, Repr

/-- `processBuffer` from src/api/client.js lines 121-177, as a function of the
captured mutable state `(thinkingMode, textBuffer)`.  Returns the emitted
events in callback order together with the final `(thinkingMode, textBuffer)`.
The numbers 7, 8, 6 are from the source (tag lengths and the kept suffixes).
The `isEmpty` tests mirror the JS truthiness guards `if (safeText)`,
`if (beforeThink)`, `if (thinkingContent)`. -/
def processBuffer : Bool → Str → (List Ev × Bool × Str)
  | false, buf =>
    match h : indexOf openTag buf with
    | none =>
      if buf.length > 6 then
        let safeText := buf.take (buf.length - 6)
        ((if safeText.isEmpty then [] else [Ev.text safeText]), false, buf.drop (buf.length - 6))
      else ([], false, buf)
    | some i =>
      let beforeThink := buf.take i
      let r := processBuffer true (buf.drop (i + 7))
      ((if beforeThink.isEmpty then [] else [Ev.text beforeThink]) ++ r.1, r.2)
  | true, buf =>
    match h : indexOf closeTag buf with
    | none =>
      if buf.length > 7 then
        let safeText := buf.take (buf.length - 7)
        ((if safeText.isEmpty then [] else [Ev.thinking safeText]), true, buf.drop (buf.length - 7))
      else ([], true, buf)
    | some i =>
      let content := buf.take i
      let r := processBuffer false (buf.drop (i + 8))
      ((if content.isEmpty then [] else [Ev.thinking content]) ++ r.1, r.2)
termination_by _ buf => buf.length
decreasing_by
  all_goals simp only [List.length_drop]
  · have hb := indexOf_some_bound h
    simp [openTag] at hb
    omega
  · have hb := indexOf_some_bound h
    simp [closeTag] at hb
    omega

/-- Reference "tags removed" function: the left-to-right scan that deletes
each `<think>`-to-`</think>` tag pair from the text and records, for every
surviving character, whether it lay inside a think section (`true`) or
outside (`false`).  It follows the same first-occurrence scan as
`processBuffer`, but never holds back a suffix. -/
def stripMarked : Bool → Str → List (Bool × Char)
  | false, buf =>
    match h : indexOf openTag buf with
    | none => buf.map fun c => (false, c)
    | some i => ((buf.take i).map fun c => (false, c)) ++ stripMarked true (buf.drop (i + 7))
  | true, buf =>
    match h : indexOf closeTag buf with
    | none => buf.map fun c => (true, c)
    | some i => ((buf.take i).map fun c => (true, c)) ++ stripMarked false (buf.drop (i + 8))
termination_by _ buf => buf.length
decreasing_by
  all_goals simp only [List.length_drop]
  · have hb := indexOf_some_bound h
    simp [openTag] at hb
    omega
  · have hb := indexOf_some_bound h
    simp [closeTag] at hb
    omega

/-- The text with the tags removed (no marks). -/
def stripTags (m : Bool) (buf : Str) : Str := (stripMarked m buf).map Prod.snd

/-- Characters emitted by a list of events, each paired with `true` when it
was emitted as `thinking` content and `false` when emitted as `text`. -/
def marksOf : List Ev → List (Bool × Char)
  | [] => []
  | Ev.text s :: es => (s.map fun c => (false, c)) ++ marksOf es
  | Ev.thinking s :: es => (s.map fun c => (true, c)) ++ marksOf es

/-- Concatenation of all emitted contents, `text` and `thinking` alike, in
emission order. -/
def contentsOf : List Ev → Str
  | [] => []
  | Ev.text s :: es => s ++ contentsOf es
  | Ev.thinking s :: es => s ++ contentsOf es

theorem marksOf_append (a b : List Ev) : marksOf (a ++ b) = marksOf a ++ marksOf b := by
  induction a with
  | nil => simp [marksOf]
  | cons e es ih => cases e <;> simp [marksOf, ih]

theorem contentsOf_eq_marks (evs : List Ev) : contentsOf evs = (marksOf evs).map Prod.snd := by
  induction evs with
  | nil => simp [marksOf, contentsOf]
  | cons e es ih => cases e <;> simp [marksOf, contentsOf, ih]

theorem marksOf_text_if (s : Str) :
    marksOf (if s.isEmpty then [] else [Ev.text s]) = s.map fun c => (false, c) := by
  cases s <;> simp [marksOf]

theorem marksOf_thinking_if (s : Str) :
    marksOf (if s.isEmpty then [] else [Ev.thinking s]) = s.map fun c => (true, c) := by
  cases s <;> simp [marksOf]

/-! Unfolding equations for `stripMarked` and `indexOf` facts. -/

theorem indexOf_none_of_short {pat l : Str} (h : l.length < pat.length) :
    indexOf pat l = none := by
  induction l with
  | nil =>
    cases pat with
    | nil => simp at h
    | cons a as => simp [indexOf, List.isPrefixOf]
  | cons c rest ih =>
    by_cases hp : pat.isPrefixOf (c :: rest) = true
    · have := isPrefixOf_length_le hp
      omega
    · have hr : indexOf pat rest = none := by
        apply ih
        simp only [List.length_cons] at h
        omega
      simp [indexOf, hp, hr]

theorem stripMarked_false_none {buf : Str} (h : indexOf openTag buf = none) :
    stripMarked false buf = buf.map fun c => (false, c) := by
  rw [stripMarked]
  split
  · rfl
  · rename_i i hi
    rw [h] at hi
    exact absurd hi (by simp)

theorem stripMarked_true_none {buf : Str} (h : indexOf closeTag buf = none) :
    stripMarked true buf = buf.map fun c => (true, c) := by
  rw [stripMarked]
  split
  · rfl
  · rename_i i hi
    rw [h] at hi
    exact absurd hi (by simp)

theorem stripMarked_false_some {buf : Str} {i : Nat} (h : indexOf openTag buf = some i) :
    stripMarked false buf
      = ((buf.take i).map fun c => (false, c)) ++ stripMarked true (buf.drop (i + 7)) := by
  conv_lhs => rw [stripMarked]
  split
  · rename_i hi
    rw [h] at hi
    exact absurd hi (by simp)
  · rename_i j hj
    rw [h] at hj
    cases hj
    rfl

theorem stripMarked_true_some {buf : Str} {i : Nat} (h : indexOf closeTag buf = some i) :
    stripMarked true buf
      = ((buf.take i).map fun c => (true, c)) ++ stripMarked false (buf.drop (i + 8)) := by
  conv_lhs => rw [stripMarked]
  split
  · rename_i hi
    rw [h] at hi
    exact absurd hi (by simp)
  · rename_i j hj
    rw [h] at hj
    cases hj
    rfl

theorem indexOf_cons_none {pat : Str} {c : Char} {rest : Str}
    (h : indexOf pat (c :: rest) = none) : indexOf pat rest = none := by
  by_cases hp : pat.isPrefixOf (c :: rest) = true
  · simp [indexOf, hp] at h
  · simp only [indexOf, hp, if_false] at h
    simpa using h

theorem isPrefixOf_append_left {pat a b : Str} (h : pat.isPrefixOf (a ++ b) = true)
    (hlen : pat.length ≤ a.length) : pat.isPrefixOf a = true := by
  rw [ List.isPrefixOf_iff_prefix] at h ⊢
  exact List.prefix_of_prefix_length_le h (List.prefix_append a b) hlen

theorem stripMarked_false_cons {c : Char} {rest : Str}
    (h : ¬ openTag.isPrefixOf (c :: rest) = true) :
    stripMarked false (c :: rest) = (false, c) :: stripMarked false rest := by
  cases hr : indexOf openTag rest with
  | none =>
    have h1 : indexOf openTag (c :: rest) = none := by simp [indexOf, h, hr]
    rw [stripMarked_false_none h1, stripMarked_false_none hr]
    simp
  | some i =>
    have h1 : indexOf openTag (c :: rest) = some (i + 1) := by simp [indexOf, h, hr]
    have harith : i + 1 + 7 = (i + 7) + 1 := by omega
    rw [stripMarked_false_some h1, stripMarked_false_some hr, harith]
    simp [List.take_succ_cons, List.drop_succ_cons]

theorem stripMarked_true_cons {c : Char} {rest : Str}
    (h : ¬ closeTag.isPrefixOf (c :: rest) = true) :
    stripMarked true (c :: rest) = (true, c) :: stripMarked true rest := by
  cases hr : indexOf closeTag rest with
  | none =>
    have h1 : indexOf closeTag (c :: rest) = none := by simp [indexOf, h, hr]
    rw [stripMarked_true_none h1, stripMarked_true_none hr]
    simp
  | some i =>
    have h1 : indexOf closeTag (c :: rest) = some (i + 1) := by simp [indexOf, h, hr]
    have harith : i + 1 + 8 = (i + 8) + 1 := by omega
    rw [stripMarked_true_some h1, stripMarked_true_some hr, harith]
    simp [List.take_succ_cons, List.drop_succ_cons]

/-- The 6-character holdback is safe: if `<think>` does not occur in `s`, no
occurrence of it in `s ++ ext` can begin in the first `s.length - 6`
characters, so stripping commutes with flushing that prefix. -/
theorem stripMarked_split_false :
    ∀ (k : Nat) (s ext : Str), k + 7 ≤ s.length + 1 → indexOf openTag s = none →
      stripMarked false (s ++ ext)
        = ((s.take k).map fun c => (false, c)) ++ stripMarked false (s.drop k ++ ext) := by
  intro k
  induction k with
  | zero => intro s ext _ _; simp
  | succ k ih =>
    intro s ext hk hnone
    cases s with
    | nil => simp at hk
    | cons c s' =>
      have hnp : ¬ openTag.isPrefixOf (c :: (s' ++ ext)) = true := by
        intro hp
        have hlen : openTag.length ≤ (c :: s').length := by
          simp only [List.length_cons] at hk ⊢
          simp only [openTag, List.length_cons, List.length_nil]
          omega
        have hpre : openTag.isPrefixOf (c :: s') = true :=
          isPrefixOf_append_left (a := c :: s') (b := ext) (by simpa using hp) hlen
        have : indexOf openTag (c :: s') = some 0 := by simp [indexOf, hpre]
        rw [hnone] at this
        simp at this
      rw [List.cons_append, stripMarked_false_cons hnp,
        ih s' ext (by simp only [List.length_cons] at hk ⊢; omega) (indexOf_cons_none hnone)]
      simp [List.take_succ_cons, List.drop_succ_cons]

/-- The 7-character holdback is safe for the closing tag. -/
theorem stripMarked_split_true :
    ∀ (k : Nat) (s ext : Str), k + 8 ≤ s.length + 1 → indexOf closeTag s = none →
      stripMarked true (s ++ ext)
        = ((s.take k).map fun c => (true, c)) ++ stripMarked true (s.drop k ++ ext) := by
  intro k
  induction k with
  | zero => intro s ext _ _; simp
  | succ k ih =>
    intro s ext hk hnone
    cases s with
    | nil => simp at hk
    | cons c s' =>
      have hnp : ¬ closeTag.isPrefixOf (c :: (s' ++ ext)) = true := by
        intro hp
        have hlen : closeTag.length ≤ (c :: s').length := by
          simp only [List.length_cons] at hk ⊢
          simp only [closeTag, List.length_cons, List.length_nil]
          omega
        have hpre : closeTag.isPrefixOf (c :: s') = true :=
          isPrefixOf_append_left (a := c :: s') (b := ext) (by simpa using hp) hlen
        have : indexOf closeTag (c :: s') = some 0 := by simp [indexOf, hpre]
        rw [hnone] at this
        simp at this
      rw [List.cons_append, stripMarked_true_cons hnp,
        ih s' ext (by simp only [List.length_cons] at hk ⊢; omega) (indexOf_cons_none hnone)]
      simp [List.take_succ_cons, List.drop_succ_cons]

/-- A first occurrence inside `s` stays the first occurrence of `s ++ ext`. -/
theorem indexOf_append_some {pat s : Str} {i : Nat} (hpat : pat ≠ [])
    (h : indexOf pat s = some i) (ext : Str) : indexOf pat (s ++ ext) = some i := by
  induction s generalizing i with
  | nil =>
    have hp : pat.isPrefixOf ([] : Str) = false := by
      cases pat with
      | nil => exact absurd rfl hpat
      | cons a as => simp [List.isPrefixOf]
    simp [indexOf, hp] at h
  | cons c rest ih =>
    by_cases hp : pat.isPrefixOf (c :: rest) = true
    · have h0 : i = 0 := by simpa [indexOf, hp] using h.symm
      subst h0
      have hp2 : pat.isPrefixOf (c :: (rest ++ ext)) = true := by
        rw [ List.isPrefixOf_iff_prefix] at hp ⊢
        simpa using hp.trans (List.prefix_append (c :: rest) ext)
      simp [indexOf, hp2]
    · obtain ⟨j, hj, rfl⟩ : ∃ j, indexOf pat rest = some j ∧ i = j + 1 := by
        cases hr : indexOf pat rest with
        | none => simp [indexOf, hp, hr] at h
        | some j =>
          simp [indexOf, hp, hr] at h
          exact ⟨j, rfl, by omega⟩
      have hnp2 : ¬ pat.isPrefixOf (c :: (rest ++ ext)) = true := by
        intro hp2
        have hlen : pat.length ≤ (c :: rest).length := by
          have := indexOf_some_bound hj
          simp only [List.length_cons]
          omega
        exact hp (isPrefixOf_append_left (a := c :: rest) (b := ext) (by simpa using hp2) hlen)
      show indexOf pat (c :: (rest ++ ext)) = some (j + 1)
      simp [indexOf, hnp2, ih hj]

theorem openTag_ne_nil : openTag ≠ [] := by simp [openTag]

theorem closeTag_ne_nil : closeTag ≠ [] := by simp [closeTag]

/-! Unfolding equations for `processBuffer`. -/

theorem processBuffer_false_none {buf : Str} (h : indexOf openTag buf = none) :
    processBuffer false buf
      = (if buf.length > 6 then
          ((if (buf.take (buf.length - 6)).isEmpty then []
            else [Ev.text (buf.take (buf.length - 6))]),
            false, buf.drop (buf.length - 6))
         else ([], false, buf)) := by
  conv_lhs => rw [processBuffer]
  split
  · rfl
  · rename_i i hi
    rw [h] at hi
    exact absurd hi (by simp)

theorem processBuffer_true_none {buf : Str} (h : indexOf closeTag buf = none) :
    processBuffer true buf
      = (if buf.length > 7 then
          ((if (buf.take (buf.length - 7)).isEmpty then []
            else [Ev.thinking (buf.take (buf.length - 7))]),
            true, buf.drop (buf.length - 7))
         else ([], true, buf)) := by
  conv_lhs => rw [processBuffer]
  split
  · rfl
  · rename_i i hi
    rw [h] at hi
    exact absurd hi (by simp)

theorem processBuffer_false_some {buf : Str} {i : Nat} (h : indexOf openTag buf = some i) :
    processBuffer false buf
      = ((if (buf.take i).isEmpty then [] else [Ev.text (buf.take i)])
          ++ (processBuffer true (buf.drop (i + 7))).1,
         (processBuffer true (buf.drop (i + 7))).2) := by
  conv_lhs => rw [processBuffer]
  split
  · rename_i hi
    rw [h] at hi
    exact absurd hi (by simp)
  · rename_i j hj
    rw [h] at hj
    cases hj
    rfl

theorem processBuffer_true_some {buf : Str} {i : Nat} (h : indexOf closeTag buf = some i) :
    processBuffer true buf
      = ((if (buf.take i).isEmpty then [] else [Ev.thinking (buf.take i)])
          ++ (processBuffer false (buf.drop (i + 8))).1,
         (processBuffer false (buf.drop (i + 8))).2) := by
  conv_lhs => rw [processBuffer]
  split
  · rename_i hi
    rw [h] at hi
    exact absurd hi (by simp)
  · rename_i j hj
    rw [h] at hj
    cases hj
    rfl

/-- Central invariant: running `processBuffer` on `buf` and then (conceptually)
stripping the kept-back remainder extended by any future text `ext` produces
the same marked characters as stripping `buf ++ ext` in one go. -/
theorem processBuffer_ext (m : Bool) (buf : Str) :
    ∀ ext : Str,
      marksOf (processBuffer m buf).1
        ++ stripMarked (processBuffer m buf).2.1 ((processBuffer m buf).2.2 ++ ext)
        = stripMarked m (buf ++ ext) := by
  induction m, buf using processBuffer.induct with
  | case1 buf h hlen =>
    intro ext
    rw [processBuffer_false_none h]
    simp only [hlen, if_true]
    rw [marksOf_text_if]
    exact (stripMarked_split_false (buf.length - 6) buf ext (by omega) h).symm
  | case2 buf h hlen =>
    intro ext
    rw [processBuffer_false_none h]
    simp only [hlen, if_false, marksOf, List.nil_append]
  | case3 buf i h ih =>
    intro ext
    rw [processBuffer_false_some h]
    have hb := indexOf_some_bound h
    have h7 : openTag.length = 7 := rfl
    rw [stripMarked_false_some (indexOf_append_some openTag_ne_nil h ext)]
    rw [List.take_append_of_le_length (by omega), List.drop_append_of_le_length (by omega)]
    simp only [marksOf_append, marksOf_text_if, List.append_assoc]
    rw [ih ext]
  | case4 buf h hlen =>
    intro ext
    rw [processBuffer_true_none h]
    simp only [hlen, if_true]
    rw [marksOf_thinking_if]
    exact (stripMarked_split_true (buf.length - 7) buf ext (by omega) h).symm
  | case5 buf h hlen =>
    intro ext
    rw [processBuffer_true_none h]
    simp only [hlen, if_false, marksOf, List.nil_append]
  | case6 buf i h ih =>
    intro ext
    rw [processBuffer_true_some h]
    have hb := indexOf_some_bound h
    have h8 : closeTag.length = 8 := rfl
    rw [stripMarked_true_some (indexOf_append_some closeTag_ne_nil h ext)]
    rw [List.take_append_of_le_length (by omega), List.drop_append_of_le_length (by omega)]
    simp only [marksOf_append, marksOf_thinking_if, List.append_assoc]
    rw [ih ext]

/-- The streaming loop of `generateAssistantResponse` (lines 179-257 of
src/api/client.js) restricted to the text parts: each SSE text part is
appended to `textBuffer` and `processBuffer` is run.  `runChunks` folds that
over the list of chunks, starting from state `(thinkingMode, textBuffer)`. -/
def runChunks : Bool → Str → List Str → (List Ev × Bool × Str)
  | m, buf, [] => ([], m, buf)
  | m, buf, c :: cs =>
    let r := processBuffer m (buf ++ c)
    let r2 := runChunks r.2.1 r.2.2 cs
    (r.1 ++ r2.1, r2.2)

theorem runChunks_marks (cs : List Str) (m : Bool) (buf : Str) :
    marksOf (runChunks m buf cs).1
      ++ stripMarked (runChunks m buf cs).2.1 (runChunks m buf cs).2.2
      = stripMarked m (buf ++ cs.flatten) := by
  induction cs generalizing m buf with
  | nil => simp [runChunks, marksOf]
  | cons c cs ih =>
    simp only [runChunks, List.flatten_cons]
    rw [marksOf_append, List.append_assoc, ih, ← List.append_assoc]
    exact processBuffer_ext _ _ cs.flatten

theorem processBuffer_rest_short (m : Bool) (buf : Str) :
    ((processBuffer m buf).2.1 = false → ((processBuffer m buf).2.2).length ≤ 6)
    ∧ ((processBuffer m buf).2.1 = true → ((processBuffer m buf).2.2).length ≤ 7) := by
  induction m, buf using processBuffer.induct with
  | case1 buf h hlen =>
    rw [processBuffer_false_none h]
    simp only [hlen, if_true]
    constructor
    · intro
      simp only [List.length_drop]
      omega
    · intro hc
      simp at hc
  | case2 buf h hlen =>
    rw [processBuffer_false_none h]
    simp only [hlen, if_false]
    constructor
    · intro
      omega
    · intro hc
      simp at hc
  | case3 buf i h ih =>
    rw [processBuffer_false_some h]
    simpa using ih
  | case4 buf h hlen =>
    rw [processBuffer_true_none h]
    simp only [hlen, if_true]
    constructor
    · intro hc
      simp at hc
    · intro
      simp only [List.length_drop]
      omega
  | case5 buf h hlen =>
    rw [processBuffer_true_none h]
    simp only [hlen, if_false]
    constructor
    · intro hc
      simp at hc
    · intro
      omega
  | case6 buf i h ih =>
    rw [processBuffer_true_some h]
    simpa using ih

theorem runChunks_rest_short (cs : List Str) (m : Bool) (buf : Str)
    (h : (m = false → buf.length ≤ 6) ∧ (m = true → buf.length ≤ 7)) :
    ((runChunks m buf cs).2.1 = false → ((runChunks m buf cs).2.2).length ≤ 6)
    ∧ ((runChunks m buf cs).2.1 = true → ((runChunks m buf cs).2.2).length ≤ 7) := by
  induction cs generalizing m buf with
  | nil => simpa [runChunks] using h
  | cons c cs ih =>
    simp only [runChunks]
    exact ih _ _ (processBuffer_rest_short m (buf ++ c))

/-- The end-of-stream flush of src/api/client.js lines 259-267: any remaining
buffered text is emitted once, typed by the current mode. -/
def finalFlush (m : Bool) (buf : Str) : List Ev :=
  if buf.isEmpty then [] else [if m then Ev.thinking buf else Ev.text buf]

/-- Whole-stream transformation: feed each text chunk through the buffer and
flush what remains at stream end. -/
def transform (chunks : List Str) : List Ev :=
  (runChunks false [] chunks).1
    ++ finalFlush (runChunks false [] chunks).2.1 (runChunks false [] chunks).2.2

theorem finalFlush_marks {m : Bool} {buf : Str}
    (h6 : m = false → buf.length ≤ 6) (h7 : m = true → buf.length ≤ 7) :
    marksOf (finalFlush m buf) = stripMarked m buf := by
  cases m
  · have hn : indexOf openTag buf = none := by
      apply indexOf_none_of_short
      have := h6 rfl
      simp only [openTag, List.length_cons, List.length_nil]
      omega
    rw [stripMarked_false_none hn]
    cases buf <;> simp [finalFlush, marksOf]
  · have hn : indexOf closeTag buf = none := by
      apply indexOf_none_of_short
      have := h7 rfl
      simp only [closeTag, List.length_cons, List.length_nil]
      omega
    rw [stripMarked_true_none hn]
    cases buf <;> simp [finalFlush, marksOf]

/-- C1: tag-splitter round trip.  For every input text and every way of
chunking it into SSE text parts, the contents emitted by the splitter
(`text` and `thinking` emissions taken together, in emission order, and
including the final flush at stream end) concatenate to the original text
with the `<think>` and `</think>` tags removed; moreover each emitted
character carries the correct classification (`thinking` exactly for the
characters between a `<think>` and its matching `</think>`), so in
particular the claim holds for every input in which the tags are balanced.
`stripTags`/`stripMarked` define tag removal by the same left-to-right
first-occurrence scan the splitter uses, which on balanced input is exactly
removal of the tag pairs. -/
theorem c1_tag_splitter_roundtrip (chunks : List Str) :
    contentsOf (transform chunks) = stripTags false chunks.flatten
    ∧ marksOf (transform chunks) = stripMarked false chunks.flatten := by
  have hshort := runChunks_rest_short chunks false [] (by simp)
  have hm : marksOf (transform chunks) = stripMarked false chunks.flatten := by
    unfold transform
    rw [marksOf_append, finalFlush_marks hshort.1 hshort.2]
    simpa using runChunks_marks chunks false []
  refine ⟨?_, hm⟩
  rw [contentsOf_eq_marks, hm]
  rfl

/-! ## Credential scheduler (src/auth/token_manager.js)

Wall-clock times are `Nat` milliseconds.  `refresh_token` strings are
modelled as `Nat` identities (the scheduler only ever compares them).  JS
`Map`s keyed by `refresh_token` are functions `Nat → _`; `activeRequests`
defaults to `0` (`get(...) || 0` in the source).  Active counts are `Int`
so that non-negativity is a statement, not a typing artifact.  Log output,
message strings and the persisted file are not modelled. -/

inductive CredStatus where
  | idle
  | active
  | rate_limited
  | disabled
deriving DecidableEq, Repr

structure LastError where
  statusCode : Option Nat
  timestamp : Nat
  isNetworkError : Bool
deriving DecidableEq, Repr

/-- Per-credential statistics record (token_manager.js lines 42-52). -/
structure CredStats where
  totalRequests : Nat
  successCount : Nat
  failureCount : Nat
  lastUsedTime : Option Nat
  lastError : Option LastError
  refreshCount : Nat
  status : CredStatus
  cooldownUntil : Option Nat
  consecutive429Count : Nat
deriving DecidableEq, Repr

/-- The record `initStats` creates on first reference. -/
def initStats : CredStats :=
  { totalRequests := 0
    successCount := 0
    failureCount := 0
    lastUsedTime := none
    lastError := none
    refreshCount := 0
    status := .idle
    cooldownUntil := none
    consecutive429Count := 0 }

/-- The error argument of `recordFailure`: `statusCode` (absent for network
errors), `retryAfter` in milliseconds, and the network flag.  A JS
`retryAfter` of `0` is truthiness-falsy, which the embedding keeps visible
by testing `ra ≠ 0`. -/
structure FailureInfo where
  statusCode : Option Nat
  retryAfter : Option Nat
  isNetworkError : Bool
deriving DecidableEq, Repr

/-- `recordSuccess` (token_manager.js lines 60-72). -/
def recordSuccess (now : Nat) (s : CredStats) : CredStats :=
  { s with
    totalRequests := s.totalRequests + 1
    successCount := s.successCount + 1
    lastUsedTime := some now
    lastError := none
    status := .active
    cooldownUntil := none
    consecutive429Count := 0 }

/-- `recordFailure` (token_manager.js lines 77-115).  The cooldown branch
mirrors `if (error.retryAfter && typeof error.retryAfter === 'number')`:
a present but zero `retryAfter` falls through to the fixed 2000 ms delay. -/
def recordFailure (now : Nat) (e : FailureInfo) (s : CredStats) : CredStats :=
  let s1 := { s with
    totalRequests := s.totalRequests + 1
    failureCount := s.failureCount + 1
    lastUsedTime := some now
    lastError := some ⟨e.statusCode, now, e.isNetworkError⟩ }
  if e.statusCode = some 429 then
    { s1 with
      status := .rate_limited
      consecutive429Count := s1.consecutive429Count + 1
      cooldownUntil :=
        match e.retryAfter with
        | some ra => if ra ≠ 0 then some (now + ra) else some (now + 2000)
        | none => some (now + 2000) }
  else if e.statusCode = some 401 ∨ e.statusCode = some 403 then
    { s1 with status := .disabled, cooldownUntil := none, consecutive429Count := 0 }
  else
    { s1 with cooldownUntil := none, consecutive429Count := 0 }

/-- `recordRefresh` (token_manager.js lines 120-126). -/
def recordRefresh (s : CredStats) : CredStats :=
  { s with refreshCount := s.refreshCount + 1 }

/-- One loaded credential.  `timestamp`/`expires_in` drive `isExpired`;
`none` models an absent field and `some 0` a JS-falsy zero. -/
structure TokenRec where
  rt : Nat
  timestamp : Option Nat
  expires_in : Option Nat
deriving DecidableEq, Repr

/-- `isExpired` (token_manager.js lines 345-349): missing or zero fields
count as expired, otherwise expiry is `timestamp + expires_in*1000` minus a
5-minute skew. -/
def isExpired (now : Nat) (t : TokenRec) : Bool :=
  match t.timestamp, t.expires_in with
  | some ts, some ei =>
    if ts = 0 ∨ ei = 0 then true
    else decide ((now : Int) ≥ (ts : Int) + (ei : Int) * 1000 - 300000)
  | _, _ => true

/-- The mutable state of the `TokenManager` singleton that the scheduler
claims concern: the enabled credential list, the stats map and the active
request counts. -/
structure MgrState where
  tokens : List TokenRec
  stats : Nat → Option CredStats
  activeRequests : Nat → Int

/-- `getActiveCount` (lines 139-142): `activeRequests.get(rt) || 0`. -/
def getActiveCount (st : MgrState) (rt : Nat) : Int := st.activeRequests rt

/-- `incrementActive` (lines 147-151). -/
def incrementActive (st : MgrState) (rt : Nat) : MgrState :=
  { st with activeRequests := fun r =>
      if r = rt then st.activeRequests rt + 1 else st.activeRequests r }

/-- `releaseToken` (lines 156-162): decrement only when the count is
positive. -/
def releaseToken (st : MgrState) (rt : Nat) : MgrState :=
  if 0 < getActiveCount st rt then
    { st with activeRequests := fun r =>
        if r = rt then getActiveCount st rt - 1 else st.activeRequests r }
  else st

/-- The inline rollback of the active count on refresh failure
(`getToken`, lines 622-626), kept as its own definition to compare with
`releaseToken`. -/
def rollbackRefreshFailure (st : MgrState) (rt : Nat) : MgrState :=
  if 0 < getActiveCount st rt then
    { st with activeRequests := fun r =>
        if r = rt then getActiveCount st rt - 1 else st.activeRequests r }
  else st

/-- `initStats`-on-demand view used by the record wrappers. -/
def statsOrInit (st : MgrState) (rt : Nat) : CredStats := (st.stats rt).getD initStats

def setStats (st : MgrState) (rt : Nat) (s : CredStats) : MgrState :=
  { st with stats := fun r => if r = rt then some s else st.stats r }

def recordFailureMgr (now : Nat) (st : MgrState) (rt : Nat) (e : FailureInfo) : MgrState :=
  setStats st rt (recordFailure now e (statsOrInit st rt))

def recordSuccessMgr (now : Nat) (st : MgrState) (rt : Nat) : MgrState :=
  setStats st rt (recordSuccess now (statsOrInit st rt))

def recordRefreshMgr (st : MgrState) (rt : Nat) : MgrState :=
  setStats st rt (recordRefresh (statsOrInit st rt))

/-! ### The selection scan of `getToken` (lines 545-582) -/

/-- `stats.get(rt)?.cooldownUntil`. -/
def cooldownUntilOf (st : MgrState) (rt : Nat) : Option Nat :=
  (st.stats rt).bind fun s => s.cooldownUntil

/-- The cooling test of the scan: `stats?.cooldownUntil && stats.cooldownUntil
> Date.now()` (a zero cooldown is JS-falsy, and `0 > now` also fails, so the
strict comparison is an exact model). -/
def isCooling (now : Nat) (st : MgrState) (rt : Nat) : Bool :=
  match cooldownUntilOf st rt with
  | some cu => decide (now < cu)
  | none => false

/-- The loop-local accumulator of the scan: `selectedToken`, `minActive`
(`none` is the initial `Infinity`), the three counters and
`minCooldownRemaining` (`none` is `Infinity`). -/
structure ScanAcc where
  selected : Option TokenRec
  minActive : Option Int
  coolingDownCount : Nat
  overloadedCount : Nat
  untriedCount : Nat
  minCooldownRemaining : Option Nat
deriving Repr

def scanInit : ScanAcc :=
  { selected := none
    minActive := none
    coolingDownCount := 0
    overloadedCount := 0
    untriedCount := 0
    minCooldownRemaining := none }

/-- `active < minActive` with `minActive` possibly `Infinity`. -/
def ltMinActive (a : Int) : Option Int → Bool
  | none => true
  | some m => decide (a < m)

/-- Tail of the loop body once the credential is known untried and not
cooling: the concurrency-cap check and the least-loaded update. -/
def scanConsider (limit : Nat) (st : MgrState) (acc : ScanAcc) (t : TokenRec) : ScanAcc :=
  let a := getActiveCount st t.rt
  if (limit : Int) ≤ a then { acc with overloadedCount := acc.overloadedCount + 1 }
  else if ltMinActive a acc.minActive then { acc with selected := some t, minActive := some a }
  else acc

/-- One iteration of `for (const t of this.tokens)` (lines 556-582). -/
def scanStep (limit now : Nat) (st : MgrState) (tried : List Nat)
    (acc : ScanAcc) (t : TokenRec) : ScanAcc :=
  if tried.contains t.rt then acc
  else
    let acc1 := { acc with untriedCount := acc.untriedCount + 1 }
    match cooldownUntilOf st t.rt with
    | some cu =>
      if now < cu then
        { acc1 with
          coolingDownCount := acc1.coolingDownCount + 1
          minCooldownRemaining := some (match acc1.minCooldownRemaining with
            | none => cu - now
            | some m => min m (cu - now)) }
      else scanConsider limit st acc1 t
    | none => scanConsider limit st acc1 t

def scanTokens (limit now : Nat) (st : MgrState) (tried : List Nat) :
    ScanAcc → List TokenRec → ScanAcc
  | acc, [] => acc
  | acc, t :: ts => scanTokens limit now st tried (scanStep limit now st tried acc t) ts

/-- The failures `getToken` can throw, with their `statusCode` payloads. -/
inductive GetTokenErr where
  | noTokens
  | allDisabled
  | allTried
  | allCooling (retryAfter : Nat)
  | concurrencyCap
  | noneUsable
  | exhausted
deriving DecidableEq, Repr

def GetTokenErr.statusCode : GetTokenErr → Nat
  | .allCooling _ => 429
  | _ => 503

/-- `Math.ceil(ms / 1000)` for a natural number of milliseconds. -/
def ceilDiv1000 (ms : Nat) : Nat := (ms + 999) / 1000

/-- One pass of `getToken`'s body up to the `incrementActive` reservation
(lines 545-613): scan all credentials, classify the failure when nothing is
selectable (lines 584-608, in source order), otherwise reserve the selected
credential.  The state is returned unchanged on every failure. -/
def selectAndReserve (limit now : Nat) (st : MgrState) (tried : List Nat) :
    Except GetTokenErr TokenRec × MgrState :=
  let r := scanTokens limit now st tried scanInit st.tokens
  match r.selected with
  | some t => (.ok t, incrementActive st t.rt)
  | none =>
    if r.untriedCount = 0 then (.error .allTried, st)
    else if r.coolingDownCount = r.untriedCount ∧ 0 < r.coolingDownCount then
      (.error (.allCooling (ceilDiv1000 (r.minCooldownRemaining.getD 0))), st)
    else if r.overloadedCount + r.coolingDownCount = r.untriedCount ∧ 0 < r.untriedCount then
      (.error .concurrencyCap, st)
    else (.error .noneUsable, st)

/-- Outcome of one `refreshToken` call, as thrown by lines 373-398: a
network error carries no status, an HTTP error carries the status and the
parsed `Retry-After`. -/
inductive RefreshOutcome where
  | ok
  | netError
  | httpError (status : Nat) (retryAfter : Option Nat)
deriving DecidableEq, Repr

/-- The `recordFailure` argument built by `getToken`'s error classification
(lines 635-665): every branch records a failure; only the 429 branch passes
`retryAfter` through.  (The 401/403 branches additionally fire
`disableToken`, which is not awaited in the source and therefore takes
effect only after the loop; the credential list is left unchanged here.) -/
def refreshFailureInfo : RefreshOutcome → Option FailureInfo
  | .ok => none
  | .netError => some ⟨none, none, true⟩
  | .httpError s ra =>
    some (if s = 429 then ⟨some 429, ra, false⟩ else ⟨some s, none, false⟩)

/-- The retry loop of `getToken` (lines 537-672): at most `initialLength`
iterations; each iteration scans and reserves, refreshes when expired
(outcomes scripted by `oracle`), and on refresh failure rolls the
reservation back, marks the credential tried, records the failure and loops.
The third component accumulates every credential the scan selected, in
order. -/
def getTokenGo (limit now : Nat) :
    Nat → MgrState → List Nat → List RefreshOutcome → List Nat →
    Except GetTokenErr TokenRec × MgrState × List Nat
  | 0, st, _, _, trace => (.error .exhausted, st, trace)
  | fuel + 1, st, tried, oracle, trace =>
    if st.tokens.length = 0 then (.error .allDisabled, st, trace)
    else
      match selectAndReserve limit now st tried with
      | (.error e, st1) => (.error e, st1, trace)
      | (.ok t, st1) =>
        let trace1 := trace ++ [t.rt]
        if isExpired now t then
          match refreshFailureInfo (oracle.headD .ok) with
          | none => (.ok t, recordRefreshMgr st1 t.rt, trace1)
          | some e =>
            let st2 := rollbackRefreshFailure st1 t.rt
            let st3 := recordFailureMgr now st2 t.rt e
            getTokenGo limit now fuel st3 (t.rt :: tried) oracle.tail trace1
        else (.ok t, st1, trace1)

/-- `getToken` (lines 525-678): the empty-pool check and the loop over at
most `tokens.length` attempts with a fresh `triedTokens` set. -/
def getToken (limit now : Nat) (st : MgrState) (oracle : List RefreshOutcome) :
    Except GetTokenErr TokenRec × MgrState × List Nat :=
  if st.tokens.length = 0 then (.error .noTokens, st, [])
  else getTokenGo limit now st.tokens.length st [] oracle []

/-! ### The retry chain of `generateAssistantResponse` (src/api/client.js) -/

/-- Outcome of one upstream POST as seen by `generateAssistantResponse`. -/
inductive UpOutcome where
  | ok
  | netError
  | httpError (status : Nat) (retryAfterMs : Option Nat)
deriving DecidableEq, Repr

/-- The `recordFailure` argument built by client.js for each outcome
(lines 27, 78, 84, 94, 103): only the 429 branch passes `retryAfter`. -/
def upstreamFailureInfo : UpOutcome → Option FailureInfo
  | .ok => none
  | .netError => some ⟨none, none, true⟩
  | .httpError s ra =>
    some (if s = 429 then ⟨some 429, ra, false⟩ else ⟨some s, none, false⟩)

/-- Which outcomes re-enter `generateAssistantResponse` when retry budget
remains: network errors, 429 and 5xx (lines 28, 85, 95). -/
def retryable : UpOutcome → Bool
  | .ok => false
  | .netError => true
  | .httpError s _ => s = 429 || (decide (500 ≤ s) && decide (s < 600))

/-- The credential usage of one request's retry chain
(`generateAssistantResponse`, lines 5-101 and the success path 269-280):
acquire a credential via `getToken` (none of the scripted chains refresh,
so the refresh oracle is empty), record the outcome, release before a
recursive retry and after a success, and stop on a non-retryable outcome.
Returns the credentials handed out by the scheduler, in order. -/
def generateChain (maxRetries limit now : Nat) :
    List UpOutcome → Nat → MgrState → List Nat × MgrState
  | [], _, st => ([], st)
  | o :: rest, retryCount, st =>
    match getToken limit now st [] with
    | (.error _, st1, _) => ([], st1)
    | (.ok t, st1, _) =>
      match upstreamFailureInfo o with
      | none =>
        ([t.rt], releaseToken (recordSuccessMgr now st1 t.rt) t.rt)
      | some e =>
        let st2 := recordFailureMgr now st1 t.rt e
        if retryable o = true ∧ retryCount < maxRetries then
          let r := generateChain maxRetries limit now rest (retryCount + 1) (releaseToken st2 t.rt)
          (t.rt :: r.1, r.2)
        else
          ([t.rt], st2)

/-! ### C3: credential uniqueness along retry chains -/

theorem contains_iff_mem {l : List Nat} {a : Nat} : l.contains a = true ↔ a ∈ l := by
  simp [List.contains, List.elem_iff]

/-- Each scan step either keeps the previous selection or selects the
current, untried credential. -/
theorem scanStep_selected (limit now : Nat) (st : MgrState) (tried : List Nat)
    (acc : ScanAcc) (t : TokenRec) :
    (scanStep limit now st tried acc t).selected = acc.selected
    ∨ ((scanStep limit now st tried acc t).selected = some t
        ∧ tried.contains t.rt = false) := by
  by_cases h1 : t.rt ∈ tried
  · left
    simp [scanStep, h1]
  · have h1' : tried.contains t.rt = false :=
      Bool.eq_false_iff.2 fun hc => h1 (contains_iff_mem.1 hc)
    cases hcu : cooldownUntilOf st t.rt with
    | some cu =>
      by_cases h2 : now < cu
      · left
        simp [scanStep, h1, hcu, h2]
      · have hstep : scanStep limit now st tried acc t
            = scanConsider limit st { acc with untriedCount := acc.untriedCount + 1 } t := by
          simp [scanStep, h1, hcu, h2]
        rw [hstep]
        simp only [scanConsider]
        split_ifs with h3 h4
        · left; rfl
        · right; exact ⟨rfl, h1'⟩
        · left; rfl
    | none =>
      have hstep : scanStep limit now st tried acc t
          = scanConsider limit st { acc with untriedCount := acc.untriedCount + 1 } t := by
        simp [scanStep, h1, hcu]
      rw [hstep]
      simp only [scanConsider]
      split_ifs with h3 h4
      · left; rfl
      · right; exact ⟨rfl, h1'⟩
      · left; rfl

/-- The scan never selects a credential from the tried set. -/
theorem scanTokens_selected_untried (limit now : Nat) (st : MgrState) (tried : List Nat) :
    ∀ (l : List TokenRec) (acc : ScanAcc),
      (∀ v, acc.selected = some v → tried.contains v.rt = false) →
      ∀ u, (scanTokens limit now st tried acc l).selected = some u →
        tried.contains u.rt = false := by
  intro l
  induction l with
  | nil => intro acc hacc u hu; exact hacc u hu
  | cons t ts ih =>
    intro acc hacc u hu
    refine ih (scanStep limit now st tried acc t) ?_ u hu
    intro v hv
    rcases scanStep_selected limit now st tried acc t with h | h
    · exact hacc v (h ▸ hv)
    · rw [h.1] at hv
      cases hv
      exact h.2

theorem selectAndReserve_ok {limit now : Nat} {st : MgrState} {tried : List Nat}
    {t : TokenRec} {st' : MgrState}
    (h : selectAndReserve limit now st tried = (.ok t, st')) :
    (scanTokens limit now st tried scanInit st.tokens).selected = some t
      ∧ st' = incrementActive st t.rt := by
  cases hsel : (scanTokens limit now st tried scanInit st.tokens).selected with
  | none =>
    simp only [selectAndReserve, hsel] at h
    split_ifs at h <;> simp at h
  | some u =>
    simp only [selectAndReserve, hsel] at h
    simp only [Prod.mk.injEq, Except.ok.injEq] at h
    obtain ⟨rfl, h2⟩ := h
    exact ⟨rfl, h2.symm⟩

/-- A credential returned by `selectAndReserve` was not in the tried set. -/
theorem selectAndReserve_ok_untried {limit now : Nat} {st : MgrState} {tried : List Nat}
    {t : TokenRec} {st' : MgrState}
    (h : selectAndReserve limit now st tried = (.ok t, st')) :
    tried.contains t.rt = false :=
  scanTokens_selected_untried limit now st tried st.tokens scanInit
    (by intro v hv; simp [scanInit] at hv) t (selectAndReserve_ok h).1

/-- Within one `getToken` call the trace of selected credentials stays
duplicate-free: every selected credential is immediately added to the tried
set before the loop continues, and the scan skips tried credentials. -/
theorem getTokenGo_trace_nodup (limit now : Nat) :
    ∀ (fuel : Nat) (st : MgrState) (tried : List Nat) (oracle : List RefreshOutcome)
      (trace : List Nat),
      (∀ r ∈ trace, tried.contains r = true) → trace.Nodup →
      ((getTokenGo limit now fuel st tried oracle trace).2.2).Nodup := by
  intro fuel
  induction fuel with
  | zero =>
    intro st tried oracle trace _ hnd
    simpa [getTokenGo] using hnd
  | succ fuel ih =>
    intro st tried oracle trace hsub hnd
    rw [getTokenGo]
    by_cases hz : st.tokens.length = 0
    · simpa [hz] using hnd
    · simp only [hz, if_false]
      cases hc : selectAndReserve limit now st tried with
      | mk res st1 =>
        cases res with
        | error e => simpa using hnd
        | ok t =>
          have hun : tried.contains t.rt = false := selectAndReserve_ok_untried hc
          have hnotmem : t.rt ∉ trace := by
            intro hmem
            have := hsub t.rt hmem
            rw [hun] at this
            exact Bool.false_ne_true this
          have hnd1 : (trace ++ [t.rt]).Nodup := by
            simp [List.nodup_append, hnd, hnotmem]
          have hsub1 : ∀ r ∈ trace ++ [t.rt], (t.rt :: tried).contains r = true := by
            intro r hr
            rw [contains_iff_mem]
            rcases List.mem_append.1 hr with h | h
            · exact List.mem_cons_of_mem _ (contains_iff_mem.1 (hsub r h))
            · simp at h
              simp [h]
          by_cases hexp : isExpired now t
          · simp only [hexp, if_true]
            cases href : refreshFailureInfo (oracle.headD .ok) with
            | none => simpa using hnd1
            | some e => simpa using ih _ _ _ _ hsub1 hnd1
          · simpa [hexp] using hnd1

/-- C3 counterexample input: a single fresh (non-expired) credential and an
upstream that returns one 500 followed by a success. -/
def cexToken : TokenRec := ⟨0, some 1, some 1000000000⟩

def cexState : MgrState := ⟨[cexToken], fun _ => none, fun _ => 0⟩

/-- C3, counterexample: the claim "the scheduler never returns the same
credential twice within one request's retry chain" is false for the code.
The `triedTokens` set lives inside a single `getToken` call, while
`generateAssistantResponse` calls `getToken` afresh on every retry: with one
credential and an upstream 500, the retry chain receives the same credential
(refresh token id 0) twice. -/
theorem c3_retry_chain_counterexample :
    (generateChain 3 2 1000 [UpOutcome.httpError 500 none, UpOutcome.ok] 0 cexState).1
        = [0, 0]
      ∧ ¬ (generateChain 3 2 1000 [UpOutcome.httpError 500 none, UpOutcome.ok] 0
            cexState).1.Nodup := by
  constructor
  · decide
  · intro h
    rw [show (generateChain 3 2 1000 [UpOutcome.httpError 500 none, UpOutcome.ok] 0
            cexState).1 = [0, 0] from by decide] at h
    simp at h

/-- C3, amended: within a single `getToken` invocation the scheduler never
selects the same credential twice — each refresh failure adds the credential
to the call's `triedTokens` set and the scan skips tried credentials — but
this uniqueness does not extend across the retries of
`generateAssistantResponse`, which call `getToken` again with a fresh tried
set (see the counterexample). -/
theorem c3_getToken_no_repeat (limit now : Nat) (st : MgrState)
    (oracle : List RefreshOutcome) :
    ((getToken limit now st oracle).2.2).Nodup := by
  unfold getToken
  by_cases hz : st.tokens.length = 0
  · simp [hz]
  · simp only [hz, if_false]
    exact getTokenGo_trace_nodup limit now st.tokens.length st [] oracle []
      (by intro r hr; simp at hr) (by simp)

/-! ### C2: least-loaded selection -/

/-- A credential the scan can select: untried, not cooling, and under the
per-credential concurrency cap. -/
def isCandidate (limit now : Nat) (st : MgrState) (tried : List Nat) (t : TokenRec) : Bool :=
  !(tried.contains t.rt) && !(isCooling now st t.rt)
    && decide (getActiveCount st t.rt < (limit : Int))

/-- Specification-side selection: the first credential, in file iteration
order, whose active count is minimal among the list (a later credential
replaces the current best only when its count is strictly smaller). -/
def firstMinActive (st : MgrState) : List TokenRec → Option TokenRec
  | [] => none
  | t :: ts =>
    match firstMinActive st ts with
    | none => some t
    | some u => if getActiveCount st u.rt < getActiveCount st t.rt then some u else some t

/-- Combination of an already-selected credential with the best of a suffix:
the suffix wins only by a strictly smaller active count. -/
def combineSel (st : MgrState) : Option TokenRec → Option TokenRec → Option TokenRec
  | none, o => o
  | some u, none => some u
  | some u, some v =>
    if getActiveCount st v.rt < getActiveCount st u.rt then some v else some u

theorem scanStep_noncandidate {limit now : Nat} {st : MgrState} {tried : List Nat}
    {acc : ScanAcc} {t : TokenRec}
    (hc : isCandidate limit now st tried t = false) :
    (scanStep limit now st tried acc t).selected = acc.selected
    ∧ (scanStep limit now st tried acc t).minActive = acc.minActive := by
  by_cases h1 : t.rt ∈ tried
  · constructor <;> simp [scanStep, h1]
  · have h1' : tried.contains t.rt = false :=
      Bool.eq_false_iff.2 fun hb => h1 (contains_iff_mem.1 hb)
    simp only [isCandidate, h1', Bool.not_false, Bool.true_and, Bool.and_eq_false_imp,
      Bool.not_eq_true', decide_eq_false_iff_not, not_lt] at hc
    cases hcu : cooldownUntilOf st t.rt with
    | some cu =>
      by_cases h2 : now < cu
      · constructor <;> simp [scanStep, h1, hcu, h2]
      · have hcool : isCooling now st t.rt = false := by simp [isCooling, hcu, h2]
        have hover : (limit : Int) ≤ getActiveCount st t.rt := hc hcool
        constructor <;> simp [scanStep, scanConsider, h1, hcu, h2, hover]
    | none =>
      have hcool : isCooling now st t.rt = false := by simp [isCooling, hcu]
      have hover : (limit : Int) ≤ getActiveCount st t.rt := hc hcool
      constructor <;> simp [scanStep, scanConsider, h1, hcu, hover]

theorem scanStep_candidate {limit now : Nat} {st : MgrState} {tried : List Nat}
    {acc : ScanAcc} {t : TokenRec}
    (hc : isCandidate limit now st tried t = true) :
    scanStep limit now st tried acc t
      = (if ltMinActive (getActiveCount st t.rt) acc.minActive then
          { acc with selected := some t, minActive := some (getActiveCount st t.rt),
                     untriedCount := acc.untriedCount + 1 }
         else { acc with untriedCount := acc.untriedCount + 1 }) := by
  simp only [isCandidate, Bool.and_eq_true, Bool.not_eq_true', decide_eq_true_eq] at hc
  obtain ⟨⟨h1, h2⟩, h3⟩ := hc
  have h1m : t.rt ∉ tried := fun hm => by
    rw [contains_iff_mem.2 hm] at h1
    simp at h1
  have hno : ¬ (limit : Int) ≤ getActiveCount st t.rt := not_le.2 h3
  cases hcu : cooldownUntilOf st t.rt with
  | some cu =>
    have hnc : ¬ now < cu := by
      intro hlt
      simp [isCooling, hcu, hlt] at h2
    by_cases hlt : ltMinActive (getActiveCount st t.rt) acc.minActive
    · simp [scanStep, scanConsider, h1m, hcu, hnc, hno, hlt]
    · simp [scanStep, scanConsider, h1m, hcu, hnc, hno, hlt]
  | none =>
    by_cases hlt : ltMinActive (getActiveCount st t.rt) acc.minActive
    · simp [scanStep, scanConsider, h1m, hcu, hno, hlt]
    · simp [scanStep, scanConsider, h1m, hcu, hno, hlt]

theorem combineSel_none (st : MgrState) (o : Option TokenRec) :
    combineSel st none o = o := rfl

theorem combineSel_some_none (st : MgrState) (u : TokenRec) :
    combineSel st (some u) none = some u := rfl

theorem combineSel_some_some (st : MgrState) (u v : TokenRec) :
    combineSel st (some u) (some v)
      = if getActiveCount st v.rt < getActiveCount st u.rt then some v else some u := rfl

theorem firstMinActive_cons_none {st : MgrState} {ts : List TokenRec} (t : TokenRec)
    (h : firstMinActive st ts = none) : firstMinActive st (t :: ts) = some t := by
  unfold firstMinActive
  rw [h]

theorem firstMinActive_cons_some {st : MgrState} {ts : List TokenRec} {u : TokenRec}
    (t : TokenRec) (h : firstMinActive st ts = some u) :
    firstMinActive st (t :: ts)
      = if getActiveCount st u.rt < getActiveCount st t.rt then some u else some t := by
  unfold firstMinActive
  rw [h]

/-- The scan computes exactly the first-minimum of the candidate sublist,
relative to anything already selected. -/
theorem scanTokens_selected_eq (limit now : Nat) (st : MgrState) (tried : List Nat) :
    ∀ (l : List TokenRec) (acc : ScanAcc),
      acc.minActive = acc.selected.map (fun u => getActiveCount st u.rt) →
      (scanTokens limit now st tried acc l).selected
        = combineSel st acc.selected
            (firstMinActive st (l.filter (isCandidate limit now st tried))) := by
  intro l
  induction l with
  | nil =>
    intro acc hinv
    cases hsel : acc.selected <;> simp [scanTokens, firstMinActive, combineSel, hsel]
  | cons t ts ih =>
    intro acc hinv
    by_cases hc : isCandidate limit now st tried t = true
    · rw [List.filter_cons_of_pos hc]
      simp only [scanTokens]
      rw [scanStep_candidate hc]
      by_cases hlt : ltMinActive (getActiveCount st t.rt) acc.minActive
      · rw [if_pos hlt]
        rw [ih _ (by simp)]
        cases hsel : acc.selected with
        | none =>
          rw [combineSel_none]
          cases hF : firstMinActive st (ts.filter (isCandidate limit now st tried)) with
          | none =>
            rw [combineSel_some_none, firstMinActive_cons_none t hF]
          | some v =>
            rw [combineSel_some_some, firstMinActive_cons_some t hF]
        | some u =>
          have hmin : acc.minActive = some (getActiveCount st u.rt) := by
            rw [hinv, hsel]; rfl
          have hlt' : getActiveCount st t.rt < getActiveCount st u.rt := by
            rw [hmin] at hlt
            simpa [ltMinActive] using hlt
          cases hF : firstMinActive st (ts.filter (isCandidate limit now st tried)) with
          | none =>
            rw [combineSel_some_none, firstMinActive_cons_none t hF,
              combineSel_some_some, if_pos hlt']
          | some v =>
            rw [combineSel_some_some, firstMinActive_cons_some t hF]
            by_cases hvt : getActiveCount st v.rt < getActiveCount st t.rt
            · rw [if_pos hvt, combineSel_some_some, if_pos (hvt.trans hlt')]
            · rw [if_neg hvt, combineSel_some_some, if_pos hlt']
      · rw [if_neg hlt]
        rw [ih _ (by simpa using hinv)]
        cases hsel : acc.selected with
        | none =>
          rw [hinv, hsel] at hlt
          simp [ltMinActive] at hlt
        | some u =>
          have hmin : acc.minActive = some (getActiveCount st u.rt) := by
            rw [hinv, hsel]; rfl
          have hge : getActiveCount st u.rt ≤ getActiveCount st t.rt := by
            rw [hmin] at hlt
            simpa [ltMinActive] using hlt
          cases hF : firstMinActive st (ts.filter (isCandidate limit now st tried)) with
          | none =>
            rw [combineSel_some_none, firstMinActive_cons_none t hF,
              combineSel_some_some, if_neg (not_lt.2 hge)]
          | some v =>
            rw [combineSel_some_some, firstMinActive_cons_some t hF]
            by_cases hvt : getActiveCount st v.rt < getActiveCount st t.rt
            · rw [if_pos hvt, combineSel_some_some]
            · rw [if_neg hvt, combineSel_some_some, if_neg (not_lt.2 hge),
                if_neg fun hture => hvt (lt_of_lt_of_le hture hge)]
    · have hc' : isCandidate limit now st tried t = false :=
        Bool.eq_false_iff.2 hc
      rw [List.filter_cons_of_neg (by simp [hc'])]
      simp only [scanTokens]
      have hpr := @scanStep_noncandidate limit now st tried acc t hc'
      rw [ih _ (by rw [hpr.1, hpr.2, hinv]), hpr.1]

theorem firstMinActive_mem {st : MgrState} :
    ∀ {l : List TokenRec} {t : TokenRec}, firstMinActive st l = some t → t ∈ l := by
  intro l
  induction l with
  | nil => intro t h; simp [firstMinActive] at h
  | cons a as ih =>
    intro t h
    cases hF : firstMinActive st as with
    | none =>
      simp only [firstMinActive, hF] at h
      cases h
      exact List.mem_cons_self a as
    | some u =>
      simp only [firstMinActive, hF] at h
      by_cases hlt : getActiveCount st u.rt < getActiveCount st a.rt
      · rw [if_pos hlt] at h
        cases h
        exact List.mem_cons_of_mem _ (ih hF)
      · rw [if_neg hlt] at h
        cases h
        exact List.mem_cons_self a as

theorem firstMinActive_isSome {st : MgrState} {l : List TokenRec} (h : l ≠ []) :
    ∃ t, firstMinActive st l = some t := by
  cases l with
  | nil => exact absurd rfl h
  | cons a as =>
    cases hF : firstMinActive st as with
    | none => exact ⟨a, firstMinActive_cons_none a hF⟩
    | some u =>
      by_cases hlt : getActiveCount st u.rt < getActiveCount st a.rt
      · exact ⟨u, by rw [firstMinActive_cons_some a hF, if_pos hlt]⟩
      · exact ⟨a, by rw [firstMinActive_cons_some a hF, if_neg hlt]⟩

theorem firstMinActive_eq_none {st : MgrState} {l : List TokenRec}
    (h : firstMinActive st l = none) : l = [] := by
  cases l with
  | nil => rfl
  | cons a as =>
    obtain ⟨t, ht⟩ := @firstMinActive_isSome st (a :: as) (by simp)
    rw [ht] at h
    cases h

theorem firstMinActive_le {st : MgrState} :
    ∀ {l : List TokenRec} {t : TokenRec}, firstMinActive st l = some t →
      ∀ u ∈ l, getActiveCount st t.rt ≤ getActiveCount st u.rt := by
  intro l
  induction l with
  | nil => intro t h; simp [firstMinActive] at h
  | cons a as ih =>
    intro t h u hu
    cases hF : firstMinActive st as with
    | none =>
      have hnil : as = [] := firstMinActive_eq_none hF
      rw [firstMinActive_cons_none a hF] at h
      cases h
      subst hnil
      simp only [List.mem_singleton] at hu
      subst hu
      exact le_refl _
    | some v =>
      rw [firstMinActive_cons_some a hF] at h
      rcases List.mem_cons.1 hu with rfl | hmem
      · by_cases hlt : getActiveCount st v.rt < getActiveCount st u.rt
        · rw [if_pos hlt] at h
          cases h
          exact le_of_lt hlt
        · rw [if_neg hlt] at h
          cases h
          exact le_refl _
      · by_cases hlt : getActiveCount st v.rt < getActiveCount st a.rt
        · rw [if_pos hlt] at h
          cases h
          exact ih hF u hmem
        · rw [if_neg hlt] at h
          cases h
          exact le_trans (not_lt.1 hlt) (ih hF u hmem)

/-- C2: whenever some untried credential is neither cooling nor at the
per-credential cap, the scheduler's selection returns the first candidate
with the smallest active count (ties broken by file iteration order) and
reserves it by incrementing exactly that credential's active count before
returning. -/
theorem c2_least_loaded_selection (limit now : Nat) (st : MgrState) (tried : List Nat)
    (h : ∃ t ∈ st.tokens, isCandidate limit now st tried t = true) :
    ∃ t, firstMinActive st (st.tokens.filter (isCandidate limit now st tried)) = some t
      ∧ t ∈ st.tokens ∧ isCandidate limit now st tried t = true
      ∧ (∀ u ∈ st.tokens, isCandidate limit now st tried u = true →
          getActiveCount st t.rt ≤ getActiveCount st u.rt)
      ∧ selectAndReserve limit now st tried = (.ok t, incrementActive st t.rt)
      ∧ getActiveCount (incrementActive st t.rt) t.rt = getActiveCount st t.rt + 1
      ∧ (∀ r, r ≠ t.rt → getActiveCount (incrementActive st t.rt) r = getActiveCount st r) := by
  have hne : st.tokens.filter (isCandidate limit now st tried) ≠ [] := by
    obtain ⟨t, ht, hc⟩ := h
    intro hnil
    have hmem : t ∈ st.tokens.filter (isCandidate limit now st tried) :=
      List.mem_filter.2 ⟨ht, hc⟩
    rw [hnil] at hmem
    simp at hmem
  obtain ⟨t, hfm⟩ := firstMinActive_isSome hne
  have hsel : (scanTokens limit now st tried scanInit st.tokens).selected = some t := by
    rw [scanTokens_selected_eq limit now st tried st.tokens scanInit (by simp [scanInit])]
    rw [hfm]
    rfl
  have hmem := firstMinActive_mem hfm
  refine ⟨t, hfm, (List.mem_filter.1 hmem).1, (List.mem_filter.1 hmem).2, ?_, ?_, ?_, ?_⟩
  · intro u hu hcu
    exact firstMinActive_le hfm u (List.mem_filter.2 ⟨hu, hcu⟩)
  · simp only [selectAndReserve, hsel]
  · simp [incrementActive, getActiveCount]
  · intro r hr
    simp [incrementActive, getActiveCount, hr]

/-- Concrete pool for the C2 witness: two fresh idle credentials. -/
def wTok0 : TokenRec := ⟨10, some 1, some 1000000000⟩

def wTok1 : TokenRec := ⟨11, some 1, some 1000000000⟩

def wState : MgrState := ⟨[wTok0, wTok1], fun _ => none, fun _ => 0⟩

theorem c2_least_loaded_selection_witness :
    (∃ t ∈ wState.tokens, isCandidate 2 1000 wState [] t = true)
    ∧ ∃ t, firstMinActive wState (wState.tokens.filter (isCandidate 2 1000 wState [])) = some t
      ∧ t ∈ wState.tokens ∧ isCandidate 2 1000 wState [] t = true
      ∧ (∀ u ∈ wState.tokens, isCandidate 2 1000 wState [] u = true →
          getActiveCount wState t.rt ≤ getActiveCount wState u.rt)
      ∧ selectAndReserve 2 1000 wState [] = (.ok t, incrementActive wState t.rt)
      ∧ getActiveCount (incrementActive wState t.rt) t.rt = getActiveCount wState t.rt + 1
      ∧ (∀ r, r ≠ t.rt → getActiveCount (incrementActive wState t.rt) r
          = getActiveCount wState r) :=
  ⟨by decide, c2_least_loaded_selection 2 1000 wState [] (by decide)⟩

/-! ### C4: failure classification when nothing is selectable -/

/-- Untried by the current call (`triedTokens.has` negated). -/
def untriedB (tried : List Nat) (t : TokenRec) : Bool := !(tried.contains t.rt)

/-- At or over the per-credential concurrency cap (`active >= perTokenLimit`).
The scan classifies a credential as overloaded only when it is not cooling,
because the cooling test comes first and `continue`s. -/
def isOverloaded (limit : Nat) (st : MgrState) (rt : Nat) : Bool :=
  decide ((limit : Int) ≤ getActiveCount st rt)

/-- `Math.min` with `Infinity` encoded as `none`. -/
def optMin : Option Nat → Option Nat → Option Nat
  | none, b => b
  | some a, none => some a
  | some a, some b => some (min a b)

def minOf : List Nat → Option Nat
  | [] => none
  | a :: l => optMin (some a) (minOf l)

/-- Remaining cooldown times (`cooldownUntil - now`) of the untried, cooling
credentials, in file order. -/
def cooldownRemainders (now : Nat) (st : MgrState) (tried : List Nat) : List Nat :=
  st.tokens.filterMap fun t =>
    if untriedB tried t && isCooling now st t.rt then
      some ((cooldownUntilOf st t.rt).getD 0 - now)
    else none

theorem optMin_assoc (a b c : Option Nat) :
    optMin (optMin a b) c = optMin a (optMin b c) := by
  cases a <;> cases b <;> cases c <;> simp [optMin, Nat.min_assoc]

theorem minOf_isSome {l : List Nat} (h : l ≠ []) : ∃ m, minOf l = some m := by
  cases l with
  | nil => exact absurd rfl h
  | cons a as =>
    cases hm : minOf as with
    | none => exact ⟨a, by simp [minOf, hm, optMin]⟩
    | some b => exact ⟨min a b, by simp [minOf, hm, optMin]⟩

theorem countP_and_split {α : Type} (l : List α) (p q : α → Bool) :
    l.countP p = l.countP (fun x => p x && q x) + l.countP (fun x => p x && !(q x)) := by
  induction l with
  | nil => simp
  | cons a as ih =>
    by_cases hp : p a <;> by_cases hq : q a <;>
      simp [List.countP_cons, hp, hq, ih] <;> omega

theorem countP_congr_mem {α : Type} {l : List α} {p q : α → Bool}
    (h : ∀ a ∈ l, p a = q a) : l.countP p = l.countP q := by
  induction l with
  | nil => simp
  | cons a as ih =>
    rw [List.countP_cons, List.countP_cons, h a (List.mem_cons_self a as),
      ih fun b hb => h b (List.mem_cons_of_mem a hb)]

/-- Field-by-field effect of one scan step on the counters and the minimum
cooldown. -/
theorem scanStep_counts (limit now : Nat) (st : MgrState) (tried : List Nat)
    (acc : ScanAcc) (t : TokenRec) :
    (scanStep limit now st tried acc t).untriedCount
      = acc.untriedCount + (if untriedB tried t then 1 else 0)
    ∧ (scanStep limit now st tried acc t).coolingDownCount
      = acc.coolingDownCount + (if untriedB tried t && isCooling now st t.rt then 1 else 0)
    ∧ (scanStep limit now st tried acc t).overloadedCount
      = acc.overloadedCount + (if untriedB tried t && !(isCooling now st t.rt)
          && isOverloaded limit st t.rt then 1 else 0)
    ∧ (scanStep limit now st tried acc t).minCooldownRemaining
      = (if untriedB tried t && isCooling now st t.rt then
          optMin acc.minCooldownRemaining (some ((cooldownUntilOf st t.rt).getD 0 - now))
         else acc.minCooldownRemaining) := by
  by_cases h1 : t.rt ∈ tried
  · have hb : tried.contains t.rt = true := contains_iff_mem.2 h1
    have h1' : untriedB tried t = false := by simp [untriedB, h1]
    refine ⟨?_, ?_, ?_, ?_⟩ <;> simp [scanStep, h1, h1']
  · have h1' : untriedB tried t = true := by
      simp only [untriedB, Bool.not_eq_true']
      exact Bool.eq_false_iff.2 fun hb => h1 (contains_iff_mem.1 hb)
    cases hcu : cooldownUntilOf st t.rt with
    | some cu =>
      by_cases h2 : now < cu
      · have hcool : isCooling now st t.rt = true := by simp [isCooling, hcu, h2]
        refine ⟨?_, ?_, ?_, ?_⟩ <;>
          simp [scanStep, h1, hcu, h2, h1', hcool, optMin] <;>
          cases acc.minCooldownRemaining <;> simp [optMin]
      · have hcool : isCooling now st t.rt = false := by simp [isCooling, hcu, h2]
        by_cases h3 : (limit : Int) ≤ getActiveCount st t.rt
        · have hover : isOverloaded limit st t.rt = true := by simp [isOverloaded, h3]
          refine ⟨?_, ?_, ?_, ?_⟩ <;>
            simp [scanStep, scanConsider, h1, hcu, h2, h1', hcool, hover, h3]
        · have hover : isOverloaded limit st t.rt = false := by simp [isOverloaded, h3]
          by_cases h4 : ltMinActive (getActiveCount st t.rt) acc.minActive
          · refine ⟨?_, ?_, ?_, ?_⟩ <;>
              simp [scanStep, scanConsider, h1, hcu, h2, h1', hcool, hover, h3, h4]
          · refine ⟨?_, ?_, ?_, ?_⟩ <;>
              simp [scanStep, scanConsider, h1, hcu, h2, h1', hcool, hover, h3, h4]
    | none =>
      have hcool : isCooling now st t.rt = false := by simp [isCooling, hcu]
      by_cases h3 : (limit : Int) ≤ getActiveCount st t.rt
      · have hover : isOverloaded limit st t.rt = true := by simp [isOverloaded, h3]
        refine ⟨?_, ?_, ?_, ?_⟩ <;>
          simp [scanStep, scanConsider, h1, hcu, h1', hcool, hover, h3]
      · have hover : isOverloaded limit st t.rt = false := by simp [isOverloaded, h3]
        by_cases h4 : ltMinActive (getActiveCount st t.rt) acc.minActive
        · refine ⟨?_, ?_, ?_, ?_⟩ <;>
            simp [scanStep, scanConsider, h1, hcu, h1', hcool, hover, h3, h4]
        · refine ⟨?_, ?_, ?_, ?_⟩ <;>
            simp [scanStep, scanConsider, h1, hcu, h1', hcool, hover, h3, h4]

/-- The counters and minimum-cooldown computed by the scan, as list-level
functions of the token list. -/
theorem scanTokens_counts (limit now : Nat) (st : MgrState) (tried : List Nat) :
    ∀ (l : List TokenRec) (acc : ScanAcc),
      (scanTokens limit now st tried acc l).untriedCount
        = acc.untriedCount + l.countP (untriedB tried)
      ∧ (scanTokens limit now st tried acc l).coolingDownCount
        = acc.coolingDownCount
            + l.countP (fun t => untriedB tried t && isCooling now st t.rt)
      ∧ (scanTokens limit now st tried acc l).overloadedCount
        = acc.overloadedCount
            + l.countP (fun t => untriedB tried t && !(isCooling now st t.rt)
                && isOverloaded limit st t.rt)
      ∧ (scanTokens limit now st tried acc l).minCooldownRemaining
        = optMin acc.minCooldownRemaining
            (minOf (l.filterMap fun t =>
              if untriedB tried t && isCooling now st t.rt then
                some ((cooldownUntilOf st t.rt).getD 0 - now)
              else none)) := by
  intro l
  induction l with
  | nil =>
    intro acc
    refine ⟨by simp [scanTokens], by simp [scanTokens], by simp [scanTokens], ?_⟩
    have hopt : ∀ a : Option Nat, optMin a none = a := fun a => by cases a <;> rfl
    simp [scanTokens, minOf, hopt]
  | cons t ts ih =>
    intro acc
    obtain ⟨hu, hc, ho, hm⟩ := ih (scanStep limit now st tried acc t)
    obtain ⟨su, sc, so, sm⟩ := scanStep_counts limit now st tried acc t
    simp only [scanTokens]
    refine ⟨?_, ?_, ?_, ?_⟩
    · rw [hu, su, List.countP_cons]
      omega
    · rw [hc, sc, List.countP_cons]
      omega
    · rw [ho, so, List.countP_cons]
      omega
    · rw [hm, sm, List.filterMap_cons]
      by_cases hcool : untriedB tried t && isCooling now st t.rt
      · rw [if_pos hcool, if_pos hcool]
        simp only [minOf]
        rw [optMin_assoc]
      · rw [if_neg hcool, if_neg hcool]

/-- When no candidate exists the scan selects nothing. -/
theorem scanTokens_selected_none (limit now : Nat) (st : MgrState) (tried : List Nat)
    (h : st.tokens.filter (isCandidate limit now st tried) = []) :
    (scanTokens limit now st tried scanInit st.tokens).selected = none := by
  rw [scanTokens_selected_eq limit now st tried st.tokens scanInit (by simp [scanInit]), h]
  rfl

/-- C4: when no candidate is selectable, `getToken`'s classification.  If
every untried credential is cooling (and one exists), the thrown error is
rate-limit shaped: `statusCode` 429 and `retryAfter` equal to
`Math.ceil(minimum remaining cooldown / 1000)` seconds (`ceilDiv1000`).  If
every untried credential is cooling or overloaded and at least one is
overloaded — i.e. counted overloaded by the scan, which tests cooling first
— the error is the concurrency-cap failure with `statusCode` 503.  In both
cases the returned state is the input state: no active count changes. -/
theorem c4_no_candidate_failures (limit now : Nat) (st : MgrState) (tried : List Nat) :
    ((∀ t ∈ st.tokens, untriedB tried t = true → isCooling now st t.rt = true) →
     (∃ t ∈ st.tokens, untriedB tried t = true) →
      ∃ m, minOf (cooldownRemainders now st tried) = some m
        ∧ selectAndReserve limit now st tried = (.error (.allCooling (ceilDiv1000 m)), st)
        ∧ (GetTokenErr.allCooling (ceilDiv1000 m)).statusCode = 429)
    ∧ ((∀ t ∈ st.tokens, untriedB tried t = true →
          isCooling now st t.rt = true ∨ isOverloaded limit st t.rt = true) →
       (∃ t ∈ st.tokens, untriedB tried t = true ∧ isCooling now st t.rt = false
          ∧ isOverloaded limit st t.rt = true) →
        selectAndReserve limit now st tried = (.error .concurrencyCap, st)
        ∧ GetTokenErr.concurrencyCap.statusCode = 503) := by
  obtain ⟨hu0, hc0, ho0, hm0⟩ :=
    scanTokens_counts limit now st tried st.tokens scanInit
  constructor
  · intro hall hex
    obtain ⟨t0, ht0, hu0t⟩ := hex
    have hcool0 : isCooling now st t0.rt = true := hall t0 ht0 hu0t
    have hfilter : st.tokens.filter (isCandidate limit now st tried) = [] := by
      rw [List.filter_eq_nil_iff]
      intro a ha
      by_cases hau : untriedB tried a = true
      · have := hall a ha hau
        simp [isCandidate, this]
      · have hat : tried.contains a.rt = true := by
          have h2 := Bool.eq_false_iff.2 hau
          simp only [untriedB] at h2
          simpa using h2
        simp [isCandidate, contains_iff_mem.1 hat]
    have hsel := scanTokens_selected_none limit now st tried hfilter
    have hcnt : st.tokens.countP (fun t => untriedB tried t && isCooling now st t.rt)
        = st.tokens.countP (untriedB tried) :=
      countP_congr_mem fun a ha => by
        by_cases hau : untriedB tried a = true
        · simp [hau, hall a ha hau]
        · have hau' : untriedB tried a = false := Bool.eq_false_iff.2 hau
          simp [hau']
    have hpos : 0 < st.tokens.countP (untriedB tried) :=
      List.countP_pos.2 ⟨t0, ht0, hu0t⟩
    have hrne : cooldownRemainders now st tried ≠ [] := by
      intro hnil
      have hmem : ((cooldownUntilOf st t0.rt).getD 0 - now)
          ∈ cooldownRemainders now st tried := by
        unfold cooldownRemainders
        exact List.mem_filterMap.2 ⟨t0, ht0, by simp [hu0t, hcool0]⟩
      rw [hnil] at hmem
      simp at hmem
    obtain ⟨m, hm⟩ := minOf_isSome hrne
    refine ⟨m, hm, ?_, rfl⟩
    have hmcr : (scanTokens limit now st tried scanInit st.tokens).minCooldownRemaining
        = some m := by
      rw [hm0]
      show minOf (cooldownRemainders now st tried) = some m
      exact hm
    have hne0 : ¬ (scanTokens limit now st tried scanInit st.tokens).untriedCount = 0 := by
      rw [hu0]
      simp only [scanInit]
      omega
    have hcond : (scanTokens limit now st tried scanInit st.tokens).coolingDownCount
          = (scanTokens limit now st tried scanInit st.tokens).untriedCount
        ∧ 0 < (scanTokens limit now st tried scanInit st.tokens).coolingDownCount := by
      refine ⟨?_, ?_⟩
      · rw [hc0, hu0, hcnt]
        rfl
      · rw [hc0, hcnt]
        simpa [scanInit] using hpos
    simp only [selectAndReserve, hsel]
    rw [if_neg hne0, if_pos hcond, hmcr]
    rfl
  · intro hall hex
    obtain ⟨t0, ht0, hu0t, hnc0, hov0⟩ := hex
    have hfilter : st.tokens.filter (isCandidate limit now st tried) = [] := by
      rw [List.filter_eq_nil_iff]
      intro a ha
      by_cases hau : untriedB tried a = true
      · rcases hall a ha hau with hcool | hover
        · simp [isCandidate, hcool]
        · simp only [isOverloaded, decide_eq_true_eq] at hover
          simp [isCandidate, not_lt.2 hover]
      · have hat : tried.contains a.rt = true := by
          have h2 := Bool.eq_false_iff.2 hau
          simp only [untriedB] at h2
          simpa using h2
        simp [isCandidate, contains_iff_mem.1 hat]
    have hsel := scanTokens_selected_none limit now st tried hfilter
    have hsplit : st.tokens.countP (untriedB tried)
        = st.tokens.countP (fun t => untriedB tried t && isCooling now st t.rt)
          + st.tokens.countP (fun t => untriedB tried t && !(isCooling now st t.rt)) :=
      countP_and_split st.tokens (untriedB tried) (fun t => isCooling now st t.rt)
    have hcgr : st.tokens.countP (fun t => untriedB tried t && !(isCooling now st t.rt))
        = st.tokens.countP (fun t => untriedB tried t && !(isCooling now st t.rt)
            && isOverloaded limit st t.rt) :=
      countP_congr_mem fun a ha => by
        by_cases hau : untriedB tried a = true
        · by_cases hac : isCooling now st a.rt = true
          · simp [hau, hac]
          · have hac' : isCooling now st a.rt = false := Bool.eq_false_iff.2 hac
            rcases hall a ha hau with hcool | hover
            · rw [hcool] at hac'
              cases hac'
            · simp [hau, hac', hover]
        · have hau' : untriedB tried a = false := Bool.eq_false_iff.2 hau
          simp [hau']
    have hopos : 0 < st.tokens.countP (fun t => untriedB tried t
        && !(isCooling now st t.rt) && isOverloaded limit st t.rt) :=
      List.countP_pos.2 ⟨t0, ht0, by simp [hu0t, hnc0, hov0]⟩
    have hne0 : ¬ (scanTokens limit now st tried scanInit st.tokens).untriedCount = 0 := by
      rw [hu0]
      simp only [scanInit]
      omega
    have hnc : ¬ ((scanTokens limit now st tried scanInit st.tokens).coolingDownCount
          = (scanTokens limit now st tried scanInit st.tokens).untriedCount
        ∧ 0 < (scanTokens limit now st tried scanInit st.tokens).coolingDownCount) := by
      rw [hc0, hu0]
      simp only [scanInit]
      omega
    have hcap : (scanTokens limit now st tried scanInit st.tokens).overloadedCount
          + (scanTokens limit now st tried scanInit st.tokens).coolingDownCount
          = (scanTokens limit now st tried scanInit st.tokens).untriedCount
        ∧ 0 < (scanTokens limit now st tried scanInit st.tokens).untriedCount := by
      rw [ho0, hc0, hu0]
      simp only [scanInit]
      omega
    simp only [selectAndReserve, hsel]
    rw [if_neg hne0, if_neg hnc, if_pos hcap]
    exact ⟨rfl, rfl⟩

/-- C4 witness pool: one cooling credential (cooldown until 5000, now 1000). -/
def w4aState : MgrState :=
  ⟨[⟨0, some 1, some 1000000000⟩],
   fun r => if r = 0 then some { initStats with cooldownUntil := some 5000 } else none,
   fun _ => 0⟩

/-- C4 witness pool: one credential at the concurrency cap (active 2). -/
def w4bState : MgrState :=
  ⟨[⟨0, some 1, some 1000000000⟩], fun _ => none, fun _ => 2⟩

theorem c4_no_candidate_failures_witness :
    ((∀ t ∈ w4aState.tokens, untriedB [] t = true → isCooling 1000 w4aState t.rt = true)
      ∧ (∃ t ∈ w4aState.tokens, untriedB [] t = true)
      ∧ ∃ m, minOf (cooldownRemainders 1000 w4aState []) = some m
          ∧ selectAndReserve 2 1000 w4aState []
              = (.error (.allCooling (ceilDiv1000 m)), w4aState)
          ∧ (GetTokenErr.allCooling (ceilDiv1000 m)).statusCode = 429)
    ∧ ((∀ t ∈ w4bState.tokens, untriedB [] t = true →
          isCooling 1000 w4bState t.rt = true ∨ isOverloaded 2 w4bState t.rt = true)
      ∧ (∃ t ∈ w4bState.tokens, untriedB [] t = true ∧ isCooling 1000 w4bState t.rt = false
          ∧ isOverloaded 2 w4bState t.rt = true)
      ∧ selectAndReserve 2 1000 w4bState [] = (.error .concurrencyCap, w4bState)
      ∧ GetTokenErr.concurrencyCap.statusCode = 503) :=
  ⟨⟨by decide, by decide,
      (c4_no_candidate_failures 2 1000 w4aState []).1 (by decide) (by decide)⟩,
   ⟨by decide, by decide,
      (c4_no_candidate_failures 2 1000 w4bState []).2 (by decide) (by decide)⟩⟩

/-! ### C5: the 429 branch of `recordFailure` -/

/-- C5, counterexample: the claim reads "sets cooldown_until to
now + retry_after_ms when a numeric retry-after value is supplied".  A
supplied numeric retry-after of 0 ms is JS-falsy, so the source's
`if (error.retryAfter && typeof error.retryAfter === 'number')` falls
through to the fixed 2000 ms delay: at `now = 1000` with `retryAfter = 0`
the cooldown becomes 3000, not `now + 0 = 1000`. -/
theorem c5_record_429_counterexample :
    (recordFailure 1000 ⟨some 429, some 0, false⟩ initStats).cooldownUntil = some 3000
    ∧ some (3000 : Nat) ≠ some ((1000 : Nat) + 0) :=
  ⟨rfl, by decide⟩

/-- C5, amended: recording a 429 failure sets the status to `rate_limited`,
increments `consecutive429Count` by one, and sets `cooldownUntil` to
`now + retryAfter` when a nonzero numeric retry-after is supplied — a zero
value counts as absent under JS truthiness — and to `now + 2000` otherwise. -/
theorem c5_record_429 (now : Nat) (s : CredStats) (b : Bool) :
    (∀ ra, ra ≠ 0 →
      (recordFailure now ⟨some 429, some ra, b⟩ s).cooldownUntil = some (now + ra))
    ∧ (recordFailure now ⟨some 429, none, b⟩ s).cooldownUntil = some (now + 2000)
    ∧ (recordFailure now ⟨some 429, some 0, b⟩ s).cooldownUntil = some (now + 2000)
    ∧ ∀ ra, (recordFailure now ⟨some 429, ra, b⟩ s).status = .rate_limited
        ∧ (recordFailure now ⟨some 429, ra, b⟩ s).consecutive429Count
            = s.consecutive429Count + 1 := by
  refine ⟨?_, ?_, ?_, ?_⟩
  · intro ra hra
    simp [recordFailure, hra]
  · simp [recordFailure]
  · simp [recordFailure]
  · intro ra
    cases ra <;> simp [recordFailure]

theorem c5_record_429_witness :
    (5000 : Nat) ≠ 0
    ∧ ((∀ ra, ra ≠ 0 →
        (recordFailure 1000 ⟨some 429, some ra, false⟩ initStats).cooldownUntil
          = some (1000 + ra))
      ∧ (recordFailure 1000 ⟨some 429, none, false⟩ initStats).cooldownUntil
          = some (1000 + 2000)
      ∧ (recordFailure 1000 ⟨some 429, some 0, false⟩ initStats).cooldownUntil
          = some (1000 + 2000)
      ∧ ∀ ra, (recordFailure 1000 ⟨some 429, ra, false⟩ initStats).status = .rate_limited
          ∧ (recordFailure 1000 ⟨some 429, ra, false⟩ initStats).consecutive429Count
              = initStats.consecutive429Count + 1) :=
  ⟨by decide, c5_record_429 1000 initStats false⟩

/-! ### C8: success + failure = total -/

/-- One statistics-affecting operation on a credential. -/
inductive StatOp where
  | succ (now : Nat)
  | fail (now : Nat) (e : FailureInfo)

def applyStatOps : List StatOp → CredStats → CredStats
  | [], s => s
  | StatOp.succ now :: ops, s => applyStatOps ops (recordSuccess now s)
  | StatOp.fail now e :: ops, s => applyStatOps ops (recordFailure now e s)

theorem recordFailure_counts (now : Nat) (e : FailureInfo) (s : CredStats) :
    (recordFailure now e s).successCount = s.successCount
    ∧ (recordFailure now e s).failureCount = s.failureCount + 1
    ∧ (recordFailure now e s).totalRequests = s.totalRequests + 1 := by
  unfold recordFailure
  split_ifs <;> simp

/-- C8: for every credential, `success_count + failure_count` equals
`total_requests` after every sequence of `recordSuccess`/`recordFailure`
operations starting from the freshly initialized statistics record. -/
theorem c8_success_plus_failure (ops : List StatOp) :
    (applyStatOps ops initStats).successCount + (applyStatOps ops initStats).failureCount
      = (applyStatOps ops initStats).totalRequests := by
  have main : ∀ (ops : List StatOp) (s : CredStats),
      s.successCount + s.failureCount = s.totalRequests →
      (applyStatOps ops s).successCount + (applyStatOps ops s).failureCount
        = (applyStatOps ops s).totalRequests := by
    intro ops
    induction ops with
    | nil =>
      intro s h
      simpa [applyStatOps] using h
    | cons op ops ih =>
      intro s h
      cases op with
      | succ now =>
        refine ih _ ?_
        simp only [recordSuccess]
        omega
      | fail now e =>
        obtain ⟨h1, h2, h3⟩ := recordFailure_counts now e s
        refine ih _ ?_
        rw [h1, h2, h3]
        omega
  exact main ops initStats (by simp [initStats])

/-! ### C10: active counts never go negative -/

/-- One active-count-affecting operation, keyed by refresh token. -/
inductive ActOp where
  | increment (rt : Nat)
  | release (rt : Nat)
  | rollback (rt : Nat)

def applyActOps : List ActOp → MgrState → MgrState
  | [], st => st
  | ActOp.increment rt :: ops, st => applyActOps ops (incrementActive st rt)
  | ActOp.release rt :: ops, st => applyActOps ops (releaseToken st rt)
  | ActOp.rollback rt :: ops, st => applyActOps ops (rollbackRefreshFailure st rt)

/-- C10: starting from the empty active-request map (every count 0, the JS
`Map` default), any sequence of `incrementActive`, `releaseToken` and of the
refresh-failure rollback leaves every credential's active count
non-negative; releasing a credential whose count is zero is a no-op; and the
inline rollback in `getToken` is the same guarded decrement as
`releaseToken`. -/
theorem c10_active_counts_nonneg :
    (∀ (tokens : List TokenRec) (stats : Nat → Option CredStats)
        (ops : List ActOp) (r : Nat),
      0 ≤ getActiveCount (applyActOps ops ⟨tokens, stats, fun _ => 0⟩) r)
    ∧ (∀ (st : MgrState) (rt : Nat), getActiveCount st rt = 0 →
        ∀ r, getActiveCount (releaseToken st rt) r = getActiveCount st r)
    ∧ (∀ (st : MgrState) (rt r : Nat),
        getActiveCount (rollbackRefreshFailure st rt) r
          = getActiveCount (releaseToken st rt) r) := by
  refine ⟨?_, ?_, ?_⟩
  · have main : ∀ (ops : List ActOp) (st : MgrState),
        (∀ r, 0 ≤ getActiveCount st r) →
        ∀ r, 0 ≤ getActiveCount (applyActOps ops st) r := by
      intro ops
      induction ops with
      | nil => intro st h r; simpa [applyActOps] using h r
      | cons op ops ih =>
        intro st h r
        cases op with
        | increment rt =>
          refine ih _ (fun r' => ?_) r
          by_cases hr : r' = rt <;>
            simp [incrementActive, getActiveCount, hr] <;>
            have := h rt <;> have := h r' <;> simp [getActiveCount] at * <;> omega
        | release rt =>
          refine ih _ (fun r' => ?_) r
          unfold releaseToken
          split_ifs with hpos
          · by_cases hr : r' = rt <;>
              simp only [getActiveCount, hr, if_pos, if_neg] <;>
              simp [getActiveCount] at hpos ⊢ <;>
              first
                | omega
                | exact h r'
          · exact h r'
        | rollback rt =>
          refine ih _ (fun r' => ?_) r
          unfold rollbackRefreshFailure
          split_ifs with hpos
          · by_cases hr : r' = rt <;>
              simp only [getActiveCount, hr, if_pos, if_neg] <;>
              simp [getActiveCount] at hpos ⊢ <;>
              first
                | omega
                | exact h r'
          · exact h r'
    intro tokens stats ops r
    exact main ops ⟨tokens, stats, fun _ => 0⟩ (fun _ => le_refl 0) r
  · intro st rt h0 r
    unfold releaseToken
    rw [if_neg]
    rw [h0]
    exact lt_irrefl 0
  · intro st rt r
    rfl

theorem c10_active_counts_nonneg_witness :
    (0 ≤ getActiveCount
        (applyActOps [ActOp.increment 0, ActOp.release 0, ActOp.release 0]
          ⟨[], fun _ => none, fun _ => 0⟩) 0)
    ∧ getActiveCount (⟨[], fun _ => none, fun _ => 0⟩ : MgrState) 5 = 0
    ∧ (∀ r, getActiveCount (releaseToken ⟨[], fun _ => none, fun _ => 0⟩ 5) r
        = getActiveCount (⟨[], fun _ => none, fun _ => 0⟩ : MgrState) r) :=
  ⟨c10_active_counts_nonneg.1 [] (fun _ => none)
      [ActOp.increment 0, ActOp.release 0, ActOp.release 0] 0,
    rfl,
    c10_active_counts_nonneg.2.1 ⟨[], fun _ => none, fun _ => 0⟩ 5 rfl⟩

/-! ### C6: idempotent admission-slot release (src/middleware/concurrency.js) -/

/-- The two response events wired to `safeResolve` (lines 83-84): `finish`
and `close`. -/
inductive ResEvent where
  | finish
  | close
deriving DecidableEq, Repr

/-- State captured by the queue task's closure: the `resolved` flag and, for
the statement of the claim, how many times `resolve()` has been called. -/
structure SlotState where
  resolved : Bool
  resolveCount : Nat
deriving DecidableEq, Repr

def slotInit : SlotState := ⟨false, 0⟩

/-- `safeResolve` (concurrency.js lines 76-81): resolve only when the flag
is still clear, then set it. -/
def safeResolve (st : SlotState) : SlotState :=
  if st.resolved then st else { resolved := true, resolveCount := st.resolveCount + 1 }

/-- Both listeners are `safeResolve`, so firing a sequence of finish/close
events applies it once per event in order. -/
def fireEvents (evs : List ResEvent) (st : SlotState) : SlotState :=
  evs.foldl (fun s _ => safeResolve s) st

theorem fireEvents_resolved (evs : List ResEvent) (n : Nat) :
    fireEvents evs ⟨true, n⟩ = ⟨true, n⟩ := by
  induction evs with
  | nil => rfl
  | cons e tl ih => simpa [fireEvents, safeResolve] using ih

/-- C6: the admission slot is released exactly once — the first event,
whether `finish` or `close`, performs the single `resolve()`, and every
later firing of either listener is a no-op. -/
theorem c6_release_exactly_once (evs : List ResEvent) (h : evs ≠ []) :
    fireEvents evs slotInit = ⟨true, 1⟩
    ∧ ∀ e : ResEvent, fireEvents (evs ++ [e]) slotInit = fireEvents evs slotInit := by
  have hrun : fireEvents evs slotInit = ⟨true, 1⟩ := by
    cases evs with
    | nil => exact absurd rfl h
    | cons e tl =>
      have h1 : safeResolve slotInit = ⟨true, 1⟩ := rfl
      calc fireEvents (e :: tl) slotInit
          = fireEvents tl (safeResolve slotInit) := rfl
        _ = fireEvents tl ⟨true, 1⟩ := by rw [h1]
        _ = ⟨true, 1⟩ := fireEvents_resolved tl 1
  refine ⟨hrun, fun e => ?_⟩
  unfold fireEvents
  rw [List.foldl_append]
  show safeResolve (fireEvents evs slotInit) = fireEvents evs slotInit
  rw [hrun]
  rfl

theorem c6_release_exactly_once_witness :
    ([ResEvent.close, ResEvent.finish] : List ResEvent) ≠ []
    ∧ fireEvents [ResEvent.close, ResEvent.finish] slotInit = ⟨true, 1⟩
    ∧ ∀ e : ResEvent, fireEvents ([ResEvent.close, ResEvent.finish] ++ [e]) slotInit
        = fireEvents [ResEvent.close, ResEvent.finish] slotInit :=
  ⟨by decide, c6_release_exactly_once [ResEvent.close, ResEvent.finish] (by decide)⟩

/-! ### C7: queue admission (src/middleware/concurrency.js lines 53-67) -/

/-- `config.concurrency?.queueLimit || 100`: a missing or zero (falsy)
configured limit defaults to 100. -/
def effectiveQueueLimit (cfg : Option Nat) : Nat :=
  match cfg with
  | some n => if n = 0 then 100 else n
  | none => 100

inductive ErrKind where
  | queue_full
deriving DecidableEq, Repr

inductive AdmitOutcome where
  | admitted
  | rejected (status : Nat) (kind : ErrKind) (queueSize : Nat)
deriving DecidableEq, Repr

/-- The admission check of `concurrencyLimiter`: when `queue.pending`
reaches the queue limit the request is answered 503 with `type=queue_full`
and `queue_size = queue.pending`; otherwise it is added to the queue. -/
def concurrencyLimiter (cfgQueueLimit : Option Nat) (pending : Nat) : AdmitOutcome :=
  if pending ≥ effectiveQueueLimit cfgQueueLimit then
    .rejected 503 .queue_full pending
  else .admitted

/-- C7: a request is admitted exactly when the number of waiting requests is
below the queue limit, and otherwise is rejected with status 503, error type
`queue_full`, and the current queue size in the body. -/
theorem c7_queue_admission (cfg : Option Nat) (pending : Nat) :
    concurrencyLimiter cfg pending
      = (if pending < effectiveQueueLimit cfg then .admitted
         else .rejected 503 .queue_full pending) := by
  unfold concurrencyLimiter
  by_cases h : pending ≥ effectiveQueueLimit cfg
  · rw [if_pos h, if_neg (not_lt.2 h)]
  · rw [if_neg h, if_pos (lt_of_not_ge h)]

/-! ### C9: the four Retry-After encodings

JS numbers are modelled as `ℚ` where fractions can occur (floats) and as
`Int`/`Nat` where the source only produces integers.  The platform `Date`
constructor is an oracle parameter. -/

/-- Decimal digit value of a character, `none` for non-digits. -/
def digitVal (c : Char) : Option Nat :=
  if c.isDigit then some (c.toNat - 48) else none

/-- Longest digit prefix (values) and the remaining characters. -/
def takeDigits : List Char → (List Nat × List Char)
  | [] => ([], [])
  | c :: rest =>
    match digitVal c with
    | some d =>
      let r := takeDigits rest
      (d :: r.1, r.2)
    | none => ([], c :: rest)

/-- Value of a most-significant-first digit list. -/
def digitsToNat (ds : List Nat) : Nat := ds.foldl (fun a d => a * 10 + d) 0

/-- JS `parseInt(s, 10)` restricted to the inputs the proxy feeds it: an
optional leading minus sign then leading decimal digits (`NaN` is `none`;
leading whitespace and an explicit plus sign are not modelled). -/
def parseInt10 (s : List Char) : Option Int :=
  match s with
  | [] => none
  | c :: rest =>
    if c = '-' then
      if (takeDigits rest).1.isEmpty then none
      else some (-(digitsToNat (takeDigits rest).1 : Int))
    else
      if (takeDigits (c :: rest)).1.isEmpty then none
      else some ((digitsToNat (takeDigits (c :: rest)).1 : Int))

/-- `parseRetryAfter` (token_manager.js lines 406-424): a numeric header
value is seconds and becomes `seconds * 1000` ms; otherwise the value is
parsed as an HTTP date by the platform `Date` constructor (the `dateParse`
oracle) and the positive difference `retryDate - now` is returned; anything
else yields `none` (the JS `null`). -/
def parseRetryAfter (dateParse : List Char → Option Int) (now : Int)
    (retryAfter : Option (List Char)) : Option Int :=
  match retryAfter with
  | none => none
  | some s =>
    match parseInt10 s with
    | some sec => some (sec * 1000)
    | none =>
      match dateParse s with
      | some ts => if 0 < ts - now then some (ts - now) else none
      | none => none

/-- The exact rational value of a decimal string `ip.fp`. -/
def decimalVal (ip fp : List Nat) : ℚ :=
  (digitsToNat ip : ℚ) + (digitsToNat fp : ℚ) / (10 : ℚ) ^ fp.length

/-- JS `parseFloat` on a `[\d.]+` run: integer digits, an optional dot and
fraction digits; parsing stops at any second dot. -/
def parseFloatRun (s : List Char) : Option ℚ :=
  match (takeDigits s).2 with
  | '.' :: rest2 =>
    if (takeDigits s).1.isEmpty ∧ (takeDigits rest2).1.isEmpty then none
    else some (decimalVal (takeDigits s).1 (takeDigits rest2).1)
  | _ =>
    if (takeDigits s).1.isEmpty then none
    else some (decimalVal (takeDigits s).1 [])

def isNumDot (c : Char) : Bool := c.isDigit || c == '.'

/-- Longest `[\d.]` prefix and the remaining characters. -/
def takeNumRun : List Char → (List Char × List Char)
  | [] => ([], [])
  | c :: rest =>
    if isNumDot c then
      let r := takeNumRun rest
      (c :: r.1, r.2)
    else ([], c :: rest)

/-- Capture group of the first match of `/([\d.]+)s/`: scan for a maximal
numeric run immediately followed by a literal `s`. -/
def matchFloatS : List Char → Option (List Char)
  | [] => none
  | c :: rest =>
    if isNumDot c then
      match (takeNumRun (c :: rest)).2 with
      | 's' :: _ => some (takeNumRun (c :: rest)).1
      | _ => matchFloatS rest
    else matchFloatS rest

/-- `RetryInfo.retryDelay` extraction (client.js lines 49-56):
`parseFloat(match[1]) * 1000` milliseconds. -/
def parseRetryDelay (s : List Char) : Option ℚ :=
  match matchFloatS s with
  | some run =>
    match parseFloatRun run with
    | some q => some (q * 1000)
    | none => none
  | none => none

/-- Capture groups of the first match of `/(\d+)m([\d.]+)s/`. -/
def matchMinSec : List Char → Option (List Nat × List Char)
  | [] => none
  | c :: rest =>
    if c.isDigit then
      match (takeDigits (c :: rest)).2 with
      | 'm' :: r2 =>
        if ((takeNumRun r2).1).isEmpty then matchMinSec rest
        else
          match (takeNumRun r2).2 with
          | 's' :: _ => some ((takeDigits (c :: rest)).1, (takeNumRun r2).1)
          | _ => matchMinSec rest
      | _ => matchMinSec rest
    else matchMinSec rest

/-- `ErrorInfo.metadata.quotaResetDelay` extraction (client.js lines 58-69):
`(minutes * 60 + seconds) * 1000` milliseconds. -/
def parseQuotaResetDelay (s : List Char) : Option ℚ :=
  match matchMinSec s with
  | some (mins, run) =>
    match parseFloatRun run with
    | some q => some (((digitsToNat mins : ℚ) * 60 + q) * 1000)
    | none => none
  | none => none

/-- The character for decimal digit `d`. -/
def renderDigits (ds : List Nat) : List Char := ds.map fun d => Char.ofNat (48 + d)

theorem digitVal_render {d : Nat} (h : d < 10) :
    digitVal (Char.ofNat (48 + d)) = some d := by
  interval_cases d <;> decide

theorem isNumDot_digit {d : Nat} (h : d < 10) :
    isNumDot (Char.ofNat (48 + d)) = true := by
  interval_cases d <;> decide

theorem isDigit_render {d : Nat} (h : d < 10) :
    (Char.ofNat (48 + d)).isDigit = true := by
  interval_cases d <;> decide

theorem render_ne_dash {d : Nat} (h : d < 10) : Char.ofNat (48 + d) ≠ '-' := by
  interval_cases d <;> decide

theorem takeDigits_render (ds : List Nat) (h : ∀ d ∈ ds, d < 10) (rest : List Char)
    (hrest : ∀ c ∈ rest.take 1, digitVal c = none) :
    takeDigits (renderDigits ds ++ rest) = (ds, rest) := by
  induction ds with
  | nil =>
    cases rest with
    | nil => rfl
    | cons c rs =>
      have hc : digitVal c = none := hrest c (by simp)
      simp [renderDigits, takeDigits, hc]
  | cons d ds ih =>
    have hd : d < 10 := h d (by simp)
    have := ih (fun x hx => h x (by simp [hx]))
    simp [renderDigits, takeDigits, digitVal_render hd] at this ⊢
    simp [this]

theorem takeNumRun_split (l rest : List Char) (hl : ∀ c ∈ l, isNumDot c = true)
    (hrest : ∀ c ∈ rest.take 1, isNumDot c = false) :
    takeNumRun (l ++ rest) = (l, rest) := by
  induction l with
  | nil =>
    cases rest with
    | nil => rfl
    | cons c rs =>
      have hc : isNumDot c = false := hrest c (by simp)
      simp [takeNumRun, hc]
  | cons c l ih =>
    have hc : isNumDot c = true := hl c (by simp)
    have := ih fun x hx => hl x (by simp [hx])
    simp [takeNumRun, hc, this]

theorem renderDigits_numDot {ds : List Nat} (h : ∀ d ∈ ds, d < 10) :
    ∀ c ∈ renderDigits ds, isNumDot c = true := by
  intro c hc
  obtain ⟨d, hd, rfl⟩ := List.mem_map.1 hc
  exact isNumDot_digit (h d hd)

theorem parseFloatRun_render (ip fp : List Nat) (hip : ip ≠ [])
    (h1 : ∀ d ∈ ip, d < 10) (h2 : ∀ d ∈ fp, d < 10) :
    parseFloatRun (renderDigits ip ++ '.' :: renderDigits fp) = some (decimalVal ip fp) := by
  have ht1 : takeDigits (renderDigits ip ++ '.' :: renderDigits fp)
      = (ip, '.' :: renderDigits fp) :=
    takeDigits_render ip h1 _ (by intro c hc; simp at hc; subst hc; decide)
  have ht2 : takeDigits (renderDigits fp) = (fp, []) := by
    have := takeDigits_render fp h2 [] (by intro c hc; simp at hc)
    simpa using this
  have hipE : ip.isEmpty = false := by
    cases ip with
    | nil => exact absurd rfl hip
    | cons a b => rfl
  simp [parseFloatRun, ht1, ht2, hipE]

theorem matchFloatS_run (l tail : List Char) (hl : ∀ c ∈ l, isNumDot c = true)
    (hne : l ≠ []) : matchFloatS (l ++ 's' :: tail) = some l := by
  cases l with
  | nil => exact absurd rfl hne
  | cons c l' =>
    have hc : isNumDot c = true := hl c (by simp)
    have hrun : takeNumRun (c :: (l' ++ 's' :: tail)) = (c :: l', 's' :: tail) := by
      have := takeNumRun_split (c :: l') ('s' :: tail) hl
        (by intro x hx; simp at hx; subst hx; decide)
      simpa using this
    rw [List.cons_append]
    conv_lhs => rw [matchFloatS]
    rw [if_pos hc, hrun]
    simp

theorem parseRetryDelay_render (ip fp : List Nat) (hip : ip ≠ [])
    (h1 : ∀ d ∈ ip, d < 10) (h2 : ∀ d ∈ fp, d < 10) :
    parseRetryDelay ((renderDigits ip ++ '.' :: renderDigits fp) ++ [ 's' ])
      = some (decimalVal ip fp * 1000) := by
  have hnumdot : ∀ c ∈ renderDigits ip ++ '.' :: renderDigits fp, isNumDot c = true := by
    intro c hc
    rcases List.mem_append.1 hc with hm | hm
    · exact renderDigits_numDot h1 c hm
    · rcases List.mem_cons.1 hm with rfl | hm2
      · decide
      · exact renderDigits_numDot h2 c hm2
  have hne : renderDigits ip ++ '.' :: renderDigits fp ≠ [] := by simp
  have hmatch := matchFloatS_run (renderDigits ip ++ '.' :: renderDigits fp) [] hnumdot hne
  unfold parseRetryDelay
  rw [show (renderDigits ip ++ '.' :: renderDigits fp) ++ [ 's' ]
      = (renderDigits ip ++ '.' :: renderDigits fp) ++ 's' :: [] from rfl, hmatch]
  show (match parseFloatRun (renderDigits ip ++ '.' :: renderDigits fp) with
    | some q => some (q * 1000)
    | none => none) = some (decimalVal ip fp * 1000)
  rw [parseFloatRun_render ip fp hip h1 h2]

theorem matchMinSec_render (ms ip fp : List Nat) (hms : ms ≠ []) (hip : ip ≠ [])
    (h0 : ∀ d ∈ ms, d < 10) (h1 : ∀ d ∈ ip, d < 10) (h2 : ∀ d ∈ fp, d < 10) :
    matchMinSec (renderDigits ms
        ++ 'm' :: ((renderDigits ip ++ '.' :: renderDigits fp) ++ [ 's' ]))
      = some (ms, renderDigits ip ++ '.' :: renderDigits fp) := by
  have hnumdot : ∀ c ∈ renderDigits ip ++ '.' :: renderDigits fp, isNumDot c = true := by
    intro c hc
    rcases List.mem_append.1 hc with hm | hm
    · exact renderDigits_numDot h1 c hm
    · rcases List.mem_cons.1 hm with rfl | hm2
      · decide
      · exact renderDigits_numDot h2 c hm2
  have hrun : takeNumRun ((renderDigits ip ++ '.' :: renderDigits fp) ++ [ 's' ])
      = (renderDigits ip ++ '.' :: renderDigits fp, [ 's' ]) := by
    have := takeNumRun_split (renderDigits ip ++ '.' :: renderDigits fp) [ 's' ] hnumdot
      (by intro x hx; simp at hx; subst hx; decide)
    simpa using this
  have hrunne : ((renderDigits ip ++ '.' :: renderDigits fp)).isEmpty = false := by
    cases ip with
    | nil => exact absurd rfl hip
    | cons a b => rfl
  cases ms with
  | nil => exact absurd rfl hms
  | cons d ms' =>
    have hd : d < 10 := h0 d (by simp)
    have hdig := takeDigits_render (d :: ms')
      h0 ('m' :: ((renderDigits ip ++ '.' :: renderDigits fp) ++ [ 's' ]))
      (by intro c hc; simp at hc; subst hc; decide)
    rw [show renderDigits (d :: ms')
        ++ 'm' :: ((renderDigits ip ++ '.' :: renderDigits fp) ++ [ 's' ])
        = Char.ofNat (48 + d) :: (renderDigits ms'
            ++ 'm' :: ((renderDigits ip ++ '.' :: renderDigits fp) ++ [ 's' ])) from rfl]
    conv_lhs => rw [matchMinSec]
    rw [if_pos (isDigit_render hd)]
    rw [show Char.ofNat (48 + d) :: (renderDigits ms'
          ++ 'm' :: ((renderDigits ip ++ '.' :: renderDigits fp) ++ [ 's' ]))
        = renderDigits (d :: ms')
          ++ 'm' :: ((renderDigits ip ++ '.' :: renderDigits fp) ++ [ 's' ]) from rfl, hdig]
    simp only [hrun, hrunne, Bool.false_eq_true, if_false]

theorem parseQuotaResetDelay_render (ms ip fp : List Nat) (hms : ms ≠ []) (hip : ip ≠ [])
    (h0 : ∀ d ∈ ms, d < 10) (h1 : ∀ d ∈ ip, d < 10) (h2 : ∀ d ∈ fp, d < 10) :
    parseQuotaResetDelay (renderDigits ms
        ++ 'm' :: ((renderDigits ip ++ '.' :: renderDigits fp) ++ [ 's' ]))
      = some (((digitsToNat ms : ℚ) * 60 + decimalVal ip fp) * 1000) := by
  unfold parseQuotaResetDelay
  rw [matchMinSec_render ms ip fp hms hip h0 h1 h2]
  show (match parseFloatRun (renderDigits ip ++ '.' :: renderDigits fp) with
    | some q => some (((digitsToNat ms : ℚ) * 60 + q) * 1000)
    | none => none) = some (((digitsToNat ms : ℚ) * 60 + decimalVal ip fp) * 1000)
  rw [parseFloatRun_render ip fp hip h1 h2]

/-- C9: all four Retry-After encodings produce the correct millisecond
value.  (1) A plain decimal-seconds header parses to `seconds * 1000` ms.
(2) An HTTP-date header (the platform `Date` parse is an oracle) parses to
`date - now` ms when positive.  (3) A RetryInfo `retryDelay` of the form
`<float>s` parses to `float * 1000` ms, exactly, over `ℚ`.  (4) An
ErrorInfo `quotaResetDelay` of the form `<int>m<float>s` parses to
`(minutes * 60 + seconds) * 1000` ms. -/
theorem c9_retry_after_parsing :
    (∀ (ds : List Nat), ds ≠ [] → (∀ d ∈ ds, d < 10) →
      ∀ (dateParse : List Char → Option Int) (now : Int),
        parseRetryAfter dateParse now (some (renderDigits ds))
          = some ((digitsToNat ds : Int) * 1000))
    ∧ (∀ (s : List Char) (ts now : Int) (dateParse : List Char → Option Int),
        parseInt10 s = none → dateParse s = some ts → 0 < ts - now →
        parseRetryAfter dateParse now (some s) = some (ts - now))
    ∧ (∀ (ip fp : List Nat), ip ≠ [] → (∀ d ∈ ip, d < 10) → (∀ d ∈ fp, d < 10) →
        parseRetryDelay ((renderDigits ip ++ '.' :: renderDigits fp) ++ [ 's' ])
          = some (decimalVal ip fp * 1000))
    ∧ (∀ (ms ip fp : List Nat), ms ≠ [] → ip ≠ [] →
        (∀ d ∈ ms, d < 10) → (∀ d ∈ ip, d < 10) → (∀ d ∈ fp, d < 10) →
        parseQuotaResetDelay (renderDigits ms
            ++ 'm' :: ((renderDigits ip ++ '.' :: renderDigits fp) ++ [ 's' ]))
          = some (((digitsToNat ms : ℚ) * 60 + decimalVal ip fp) * 1000)) := by
  refine ⟨?_, ?_, ?_, ?_⟩
  · intro ds hne h dateParse now
    have hint : parseInt10 (renderDigits ds) = some ((digitsToNat ds : Int)) := by
      cases ds with
      | nil => exact absurd rfl hne
      | cons d ds' =>
        have hd : d < 10 := h d (by simp)
        have hdig : takeDigits (renderDigits (d :: ds')) = (d :: ds', []) := by
          have := takeDigits_render (d :: ds') h [] (by intro c hc; simp at hc)
          simpa using this
        rw [show renderDigits (d :: ds')
            = Char.ofNat (48 + d) :: renderDigits ds' from rfl]
        conv_lhs => rw [parseInt10]
        rw [if_neg (render_ne_dash hd)]
        rw [show Char.ofNat (48 + d) :: renderDigits ds'
            = renderDigits (d :: ds') from rfl, hdig]
        rfl
    show (match parseInt10 (renderDigits ds) with
      | some sec => some (sec * 1000)
      | none =>
        match dateParse (renderDigits ds) with
        | some ts => if 0 < ts - now then some (ts - now) else none
        | none => none) = some ((digitsToNat ds : Int) * 1000)
    rw [hint]
  · intro s ts now dateParse hint hdate hpos
    show (match parseInt10 s with
      | some sec => some (sec * 1000)
      | none =>
        match dateParse s with
        | some ts => if 0 < ts - now then some (ts - now) else none
        | none => none) = some (ts - now)
    rw [hint, hdate]
    show (if 0 < ts - now then some (ts - now) else none) = some (ts - now)
    rw [if_pos hpos]
  · intro ip fp hip h1 h2
    exact parseRetryDelay_render ip fp hip h1 h2
  · intro ms ip fp hms hip h0 h1 h2
    exact parseQuotaResetDelay_render ms ip fp hms hip h0 h1 h2

theorem c9_retry_after_parsing_witness :
    parseRetryAfter (fun _ => none) 0 (some (renderDigits [3, 0]))
        = some ((digitsToNat [3, 0] : Int) * 1000)
    ∧ parseRetryAfter (fun _ => some 5000) 2000 (some [ 'G' ]) = some (5000 - 2000)
    ∧ parseRetryDelay ((renderDigits [2] ++ '.' :: renderDigits [5]) ++ [ 's' ])
        = some (decimalVal [2] [5] * 1000)
    ∧ parseQuotaResetDelay (renderDigits [1]
          ++ 'm' :: ((renderDigits [3, 0] ++ '.' :: renderDigits [5]) ++ [ 's' ]))
        = some (((digitsToNat [1] : ℚ) * 60 + decimalVal [3, 0] [5]) * 1000) :=
  ⟨c9_retry_after_parsing.1 [3, 0] (by decide) (by decide) (fun _ => none) 0,
   c9_retry_after_parsing.2.1 [ 'G' ] 5000 2000 (fun _ => some 5000) (by decide) rfl
     (by decide),
   c9_retry_after_parsing.2.2.1 [2] [5] (by decide) (by decide) (by decide),
   c9_retry_after_parsing.2.2.2 [1] [3, 0] [5] (by decide) (by decide) (by decide)
     (by decide) (by decide)⟩

end AntigravityProxy
